import Mathlib

/-!
# Festival normaliser of `connect.js`

A shallow embedding of `ensureISODate` and `flattenIndiaCommon` (lines 180-310 of
`src/connect.js`) together with the fragment of the JavaScript value semantics
these two functions exercise, and of the handler of `POST /api/quiz/submit`
(lines 82-121) as a transition on the score table.

Modelling conventions.

* A document is a `JVal`, a value as produced by `JSON.parse`.  A number of a
  document is an integer; the model is exact for the safe integers (magnitude
  below `2^53`) and for integers of at most 15 significant digits, which are the
  ones a double holds and prints back digit for digit.  Fractional numbers of a
  document are outside the model.  Numbers obtained from text by `Number(...)`
  are `JNum`s: `NaN`, an integer, a non-integer located between two integers, or
  an infinity; the exact decimal value of the text is taken, without the binary
  rounding of a long mantissa.
* An operation that may throw a `TypeError` returns an `Option`; `none` is the
  thrown error.  `ensureISODate` therefore returns `Option (Option String)`:
  the outer level is "returned / threw", the inner one is "string / null".
  Exhaustion of the call stack by `Array.prototype.join` on a very deeply nested
  array (a `RangeError` at a depth that depends on the host) is not modelled:
  `toStr` follows the nesting to any depth.  The theorems that assert a return
  of the program do so only for documents whose converted values are primitives.
* `new Date(string)` is implementation-defined beyond the ISO format; it is the
  parameter `P : String → Option (Int × Int × Int)` giving the local full year,
  month index and day of month, `none` standing for an invalid date.
* `new Date(y, m, d)` is proleptic Gregorian calendar arithmetic in a local zone
  with a fixed offset.
* `Array.prototype.sort` is the runtime's; it is modelled as an insertion sort
  that consults the comparator only through its sign.
* The database behind the quiz handler is a table with at most one score for each
  row key; every statement succeeds and requests run one at a time.
-/

namespace Connect

/-! ## Values -/

/-- A JavaScript value as produced by `JSON.parse`, plus `undefined`. -/
inductive JVal where
  | undefined
  | null
  | bool (b : Bool)
  | num (n : Int)
  | str (s : String)
  | arr (xs : List JVal)
  | obj (kvs : List (String × JVal))

/-- Result of a numeric conversion: `NaN`, an integer, a finite non-integer lying
strictly between `lo` and `lo + 1`, or an infinity. -/
inductive JNum where
  | nan
  | int (n : Int)
  | between (lo : Int)
  | inf (negative : Bool)

/-- An object literal's property list. The first binding of a key is the live one. -/
abbrev Props := List (String × JVal)

/-- ToBoolean. -/
def truthy : JVal → Bool
  | .undefined => false
  | .null => false
  | .bool b => b
  | .num n => decide (n ≠ 0)
  | .str s => decide (s.data ≠ [])
  | .arr _ => true
  | .obj _ => true

/-- The operator `a || b`. -/
def orElse (a b : JVal) : JVal := if truthy a then a else b

/-- Own property lookup in a property list; `undefined` when absent. -/
def lookup (k : String) : Props → JVal
  | [] => .undefined
  | (k', v) :: rest => if k' = k then v else lookup k rest

/-- Whether a property list binds the key. -/
def hasOwn (k : String) : Props → Bool
  | [] => false
  | (k', _) :: rest => if k' = k then true else hasOwn k rest

/-- Property read `v.k` for the property names the program reads (none of them is
an index, `length`, or a name found on a built-in prototype): an own property of
an object, `undefined` on every other value. -/
def get (v : JVal) (k : String) : JVal :=
  match v with
  | .obj kvs => lookup k kvs
  | _ => .undefined

/-- Test `v !== undefined`. -/
def isDefined : JVal → Bool
  | .undefined => false
  | _ => true

/-- Test `v === s` for a string literal `s`. -/
def strictEqStr (v : JVal) (s : String) : Bool :=
  match v with
  | .str t => decide (t = s)
  | _ => false

/-- Keys `0, 1, ...` paired with the elements of a list. -/
def indexed : Nat → List JVal → Props
  | _, [] => []
  | i, x :: xs => (toString i, x) :: indexed (i + 1) xs

/-- Own enumerable properties copied by an object spread `{...v}`: the bindings
of an object, the elements of an array and the characters of a string under
their indices, nothing for the other values. -/
def ownProps : JVal → Props
  | .obj kvs => kvs
  | .arr xs => indexed 0 xs
  | .str s => indexed 0 (s.data.map fun c => JVal.str (String.singleton c))
  | _ => []

/-- Property list of `{...a, ...b}`: the bindings of `b` shadow those of `a`. -/
def spread (a b : Props) : Props := b ++ a

/-! ## String and number conversions -/

/-- Number::toString of a natural number: plain decimal digits below `10^21`,
from there on the significant digits (trailing zeros dropped), a point after the
first of them when there are several, and the exponent `e+n`. -/
def natText (m : Nat) : String :=
  if m < 10 ^ 21 then toString m
  else
    let ds := (toString m).data
    match (ds.reverse.dropWhile fun c => c = '0').reverse with
    | [] => toString m
    | [d] => String.mk [d] ++ "e+" ++ toString (ds.length - 1)
    | d :: rest => String.mk (d :: '.' :: rest) ++ "e+" ++ toString (ds.length - 1)

/-- Number::toString of an integer. -/
def numText : Int → String
  | .ofNat m => natText m
  | .negSucc m => "-" ++ natText (m + 1)

mutual
/-- ToString, as applied by a template literal. An object with an own `toString`
property (never callable in parsed JSON) makes OrdinaryToPrimitive throw. -/
def toStr : JVal → Option String
  | .undefined => some "undefined"
  | .null => some "null"
  | .bool b => some (if b then "true" else "false")
  | .num n => some (numText n)
  | .str s => some s
  | .arr xs => (elemStrs xs).map (String.intercalate ",")
  | .obj kvs => if hasOwn "toString" kvs then none else some "[object Object]"
/-- The pieces `Array.prototype.join` concatenates: empty for `null` and
`undefined`, ToString of the element otherwise. -/
def elemStrs : List JVal → Option (List String)
  | [] => some []
  | .undefined :: xs => (elemStrs xs).map ("" :: ·)
  | .null :: xs => (elemStrs xs).map ("" :: ·)
  | x :: xs =>
    match toStr x, elemStrs xs with
    | some s, some ss => some (s :: ss)
    | _, _ => none
end

/-- White space and line terminators stripped by StringToNumber. -/
def isJsSpace (c : Char) : Bool :=
  let n := c.toNat
  n = 9 || n = 10 || n = 11 || n = 12 || n = 13 || n = 32 || n = 0xA0 || n = 0x1680 ||
    (0x2000 ≤ n && n ≤ 0x200A) || n = 0x2028 || n = 0x2029 || n = 0x202F ||
    n = 0x205F || n = 0x3000 || n = 0xFEFF

/-- Value of a run of decimal digits. -/
def digitsVal (cs : List Char) : Nat :=
  cs.foldl (fun acc c => 10 * acc + (c.toNat - 48)) 0

/-- Value of a hexadecimal digit, `none` for any other character. -/
def hexDigit (c : Char) : Option Nat :=
  if c.isDigit then some (c.toNat - 48)
  else if 'a'.toNat ≤ c.toNat ∧ c.toNat ≤ 'f'.toNat then some (c.toNat - 87)
  else if 'A'.toNat ≤ c.toNat ∧ c.toNat ≤ 'F'.toNat then some (c.toNat - 55)
  else none

/-- Value of a non-empty run of digits of the given radix (2, 8 or 16). -/
def radixVal (radix : Nat) : Nat → List Char → Option Nat
  | acc, [] => some acc
  | acc, c :: cs =>
    match hexDigit c with
    | some d => if d < radix then radixVal radix (radix * acc + d) cs else none
    | none => none

/-- The least magnitude that rounds to an infinity: half way between the largest
double and `2^1024`. -/
def overflowBound : Nat := 2 ^ 1024 - 2 ^ 970

/-- The number `m * 10^p` for a natural `m` and an integer `p`. -/
def scaled (m : Nat) (p : Int) : JNum :=
  match p with
  | .ofNat k => if overflowBound ≤ m * 10 ^ k then .inf false else .int (m * 10 ^ k)
  | .negSucc k =>
    if overflowBound ≤ m / 10 ^ (k + 1) then .inf false
    else if m % 10 ^ (k + 1) = 0 then .int (m / 10 ^ (k + 1))
    else .between (m / 10 ^ (k + 1))

/-- A NonDecimalIntegerLiteral: `0x`, `0o` or `0b` (either case) and digits. -/
def radixLit (radix : Nat) (digits : List Char) : JNum :=
  match digits with
  | [] => .nan
  | _ =>
    match radixVal radix 0 digits with
    | some v => scaled v 0
    | none => .nan

/-- An ExponentPart after its `e`: an optional sign and a non-empty run of digits. -/
def exponentVal (cs : List Char) : Option Int :=
  match cs with
  | '+' :: ds => if ds ≠ [] ∧ ds.all Char.isDigit then some (digitsVal ds) else none
  | '-' :: ds => if ds ≠ [] ∧ ds.all Char.isDigit then some (-(digitsVal ds : Int)) else none
  | ds => if ds ≠ [] ∧ ds.all Char.isDigit then some (digitsVal ds) else none

/-- The digits before and after the point of a mantissa, `none` when it is not
of one of the forms `ddd`, `ddd.`, `ddd.ddd`, `.ddd`. -/
def mantissaParts (cs : List Char) : Option (List Char × List Char) :=
  match cs.span fun c => c ≠ '.' with
  | (whole, []) => if whole ≠ [] ∧ whole.all Char.isDigit then some (whole, []) else none
  | (whole, _ :: frac) =>
    if (whole ≠ [] ∨ frac ≠ []) ∧ whole.all Char.isDigit ∧ frac.all Char.isDigit then
      some (whole, frac)
    else none

/-- A StrUnsignedDecimalLiteral: `Infinity`, or a mantissa with an optional
exponent part. -/
def unsignedLit (cs : List Char) : JNum :=
  if cs = "Infinity".data then .inf false
  else
    match cs.span fun c => c ≠ 'e' ∧ c ≠ 'E' with
    | (mant, []) =>
      match mantissaParts mant with
      | some (whole, frac) => scaled (digitsVal (whole ++ frac)) (-(frac.length : Int))
      | none => .nan
    | (mant, _ :: ex) =>
      match mantissaParts mant, exponentVal ex with
      | some (whole, frac), some e => scaled (digitsVal (whole ++ frac)) (e - frac.length)
      | _, _ => .nan

/-- Negation of a numeric result. -/
def JNum.neg : JNum → JNum
  | .nan => .nan
  | .int n => .int (-n)
  | .between lo => .between (-lo - 1)
  | .inf negative => .inf (!negative)

/-- StringToNumber: surrounding white space is stripped; the empty text is `0`;
a text with a radix prefix is read in that radix; any other text is an optionally
signed decimal literal; every text outside this grammar is `NaN`. -/
def stringToNumber (s : String) : JNum :=
  let cs := ((s.data.dropWhile isJsSpace).reverse.dropWhile isJsSpace).reverse
  match cs with
  | [] => .int 0
  | '0' :: 'x' :: rest => radixLit 16 rest
  | '0' :: 'X' :: rest => radixLit 16 rest
  | '0' :: 'o' :: rest => radixLit 8 rest
  | '0' :: 'O' :: rest => radixLit 8 rest
  | '0' :: 'b' :: rest => radixLit 2 rest
  | '0' :: 'B' :: rest => radixLit 2 rest
  | '+' :: rest => unsignedLit rest
  | '-' :: rest => (unsignedLit rest).neg
  | _ => unsignedLit cs

/-- Test `isNaN(n)`. -/
def JNum.isNaN : JNum → Bool
  | .nan => true
  | _ => false

/-- ToIntegerOrInfinity of a finite number (truncation towards zero); `none` for
`NaN` and the infinities. -/
def JNum.trunc : JNum → Option Int
  | .int n => some n
  | .between lo => some (if 0 ≤ lo then lo else lo + 1)
  | _ => none

/-- ToNumber. Arrays and objects go through ToPrimitive with hint number: the
inherited `valueOf` returns the object itself, so the result is that of
`toString`. -/
def toNumber : JVal → Option JNum
  | .undefined => some .nan
  | .null => some (.int 0)
  | .bool b => some (.int (if b then 1 else 0))
  | .num n => some (.int n)
  | .str s => some (stringToNumber s)
  | .arr xs => (toStr (.arr xs)).map stringToNumber
  | .obj kvs => (toStr (.obj kvs)).map stringToNumber

/-! ## Patterns -/

/-- The regular expression `^\d{4}-\d{2}-\d{2}$`. -/
def isISO (s : String) : Bool :=
  match s.data with
  | [a, b, c, d, '-', e, f, '-', g, h] =>
    a.isDigit && b.isDigit && c.isDigit && d.isDigit && e.isDigit && f.isDigit &&
      g.isDigit && h.isDigit
  | _ => false

/-- The regular expression `^\d{2}-\d{2}$`. -/
def isMMDD (s : String) : Bool :=
  match s.data with
  | [a, b, '-', c, d] => a.isDigit && b.isDigit && c.isDigit && d.isDigit
  | _ => false

/-- The two capture groups of `^(\d{2})-(\d{2})$`. -/
def mmddGroups (s : String) : String × String :=
  (String.mk (s.data.take 2), String.mk (s.data.drop 3))

/-! ## Calendar -/

/-- Day number (days since 1970-01-01) of the first day of month index `m`
(`0 ≤ m ≤ 11`) of year `y` in the proleptic Gregorian calendar. -/
def dayOfMonthStart (y m : Int) : Int :=
  let y1 := if m < 2 then y - 1 else y
  let era := y1 / 400
  let yoe := y1 - era * 400
  let mp := if m < 2 then m + 10 else m - 2
  let doy := (153 * mp + 2) / 5
  let doe := yoe * 365 + yoe / 4 - yoe / 100 + doy
  era * 146097 + doe - 719468

/-- Full year, month index and day of month of a day number. -/
def civilOfDay (z : Int) : Int × Int × Int :=
  let z1 := z + 719468
  let era := z1 / 146097
  let doe := z1 - era * 146097
  let yoe := (doe - doe / 1460 + doe / 36524 - doe / 146096) / 365
  let doy := doe - (365 * yoe + yoe / 4 - yoe / 100)
  let mp := (5 * doy + 2) / 153
  let d := doy - (153 * mp + 2) / 5 + 1
  let m := if mp < 10 then mp + 2 else mp - 10
  let y := yoe + era * 400
  (if m < 2 then y + 1 else y, m, d)

/-- Local calendar fields of `new Date(y, m, d)` for numeric arguments: years
`0..99` mean `1900..1999`, month and day overflow carry, and a date further than
`10^8` days from the epoch is invalid (`none`). -/
def makeDate (y m d : Int) : Option (Int × Int × Int) :=
  let yr := if 0 ≤ y ∧ y ≤ 99 then 1900 + y else y
  let ym := yr + m / 12
  let mn := m % 12
  let day := dayOfMonthStart ym mn + d - 1
  if -100000000 ≤ day ∧ day ≤ 100000000 then some (civilOfDay day) else none

/-- The call `String(n).padStart(2, '0')` for an integer `n`. -/
def pad2 (n : Int) : String :=
  let s := toString n
  String.mk (List.replicate (2 - s.length) '0') ++ s

/-- The template `yyyy-mm-dd` built from the getters of a date: the month is
the index plus one, month and day are padded to two characters, the year is not
padded; every getter of an invalid date is `NaN`. -/
def formatDate : Option (Int × Int × Int) → String
  | some (y, m, d) => toString y ++ "-" ++ pad2 (m + 1) ++ "-" ++ pad2 d
  | none => "NaN-NaN-NaN"

/-! ## `ensureISODate` -/

/-- Host date parser: local full year, month index and day of month of
`new Date(text)`, or `none` for an invalid date. -/
abbrev DateParser := String → Option (Int × Int × Int)

/-- The month after the statements `if (m >= 1 && m <= 12) m = m - 1;` and
`m = Number(m);` (lines 210-212). -/
def shiftMonth (m : JVal) : Option JNum :=
  (toNumber m).map fun n =>
    match n with
    | .int k => if 1 ≤ k ∧ k ≤ 12 then .int (k - 1) else .int k
    | .between lo => if 1 ≤ lo ∧ lo ≤ 11 then .between (lo - 1) else .between lo
    | other => other

/-- Local fields of `new Date(y, m, day)` where `m` and `day` are numbers and `y`
is converted by the constructor; each argument is truncated to an integer, and a
`NaN` or infinite argument gives an invalid date. -/
def dateOfFields (y : JVal) (m day : JNum) : Option (Option (Int × Int × Int)) :=
  (toNumber y).map fun yn =>
    match yn.trunc, m.trunc, day.trunc with
    | some yi, some mi, some di => makeDate yi mi di
    | _, _, _ => none

/-- The string branch of `ensureISODate` (lines 185-203). -/
def ensureISOString (P : DateParser) (s : String) (defaultYear : JVal) :
    Option (Option String) :=
  if isISO s then some (some s)
  else if isMMDD s && truthy defaultYear then
    (toStr defaultYear).map fun y =>
      some (y ++ "-" ++ (mmddGroups s).1 ++ "-" ++ (mmddGroups s).2)
  else
    match P s with
    | some ymd => some (some (formatDate (some ymd)))
    | none => some none

/-- The guarded block `if (y && !isNaN(m) && !isNaN(day)) { ... }` (lines 214-220)
followed by the final `return null`. -/
def formatFields (y : JVal) (mn dn : JNum) : Option (Option String) :=
  if truthy y && !mn.isNaN && !dn.isNaN then
    (dateOfFields y mn dn).map fun dt => some (formatDate dt)
  else some none

/-- The object branch of `ensureISODate` (lines 205-222). -/
def ensureISOObject (thing : JVal) (defaultYear : JVal) : Option (Option String) :=
  let y := orElse (get thing "year") defaultYear
  let m := get thing "month"
  match m with
  | .undefined => some none
  | .null => some none
  | _ =>
    (shiftMonth m).bind fun mn =>
      (toNumber (orElse (orElse (get thing "day") (get thing "date")) (.num 1))).bind fun dn =>
        formatFields y mn dn

/-- The function `ensureISODate(thing, defaultYear)`: `some (some s)` when it
returns the string `s`, `some none` when it returns `null`, `none` when a
conversion throws. -/
def ensureISODate (P : DateParser) (thing : JVal) (defaultYear : JVal) :
    Option (Option String) :=
  if !truthy thing then some none
  else
    match thing with
    | .str s => ensureISOString P s defaultYear
    | .arr _ => ensureISOObject thing defaultYear
    | .obj _ => ensureISOObject thing defaultYear
    | _ => some none

/-! ## `flattenIndiaCommon` -/

/-- A record pushed onto `out`. The date is always a string. -/
structure Event where
  name : JVal
  date : String
  type : JVal
  overview : JVal
  color : JVal
  source : JVal

/-- The value of the `type` property: the condition of the conditional operator
is the whole disjunction `meta.type || meta.isHoliday || meta.group === 'non_holidays'`. -/
def eventType (m : JVal) : JVal :=
  if truthy (orElse (orElse (get m "type") (get m "isHoliday"))
      (.bool (strictEqStr (get m "group") "non_holidays")))
  then .str "holiday"
  else orElse (get m "type") (.str "festival")

/-- The value of the `color` property. -/
def eventColor (m : JVal) : JVal :=
  orElse (get m "color")
    (if strictEqStr (get m "type") "holiday" then .str "#18b93f" else .str "#ff8a5b")

/-- The helper `pushEvent(name, isoDate, meta)` (lines 232-242): the events it
appends to `out`, none when `isoDate` is falsy. -/
def pushEvent (name : JVal) (isoDate : Option String) (m : JVal) : List Event :=
  match isoDate with
  | none => []
  | some d =>
    if d.data = [] then []
    else
      [{ name := orElse (orElse name (get m "name")) (.str "Event")
         date := d
         type := eventType m
         overview := orElse (orElse (get m "overview") (get m "description")) (.str "")
         color := eventColor m
         source := orElse (get m "source") (.str "india_common") }]

/-- Sequential `forEach` whose body appends events and may throw. -/
def forEachEvents (body : JVal → Option (List Event)) : List JVal → Option (List Event)
  | [] => some []
  | x :: xs =>
    match body x with
    | none => none
    | some es =>
      match forEachEvents body xs with
      | none => none
      | some rest => some (es ++ rest)

/-- The date of a fixed-holiday entry (lines 252-259). -/
def fixedIso (P : DateParser) (item : JVal) : Option (Option String) :=
  match get item "date" with
  | .str s => ensureISODate P (.str s) .null
  | _ =>
    if truthy (get item "year") && isDefined (get item "month") && truthy (get item "day") then
      ensureISODate P
        (.obj [("year", get item "year"), ("month", get item "month"), ("day", get item "day")])
        .null
    else some none

/-- The body of `arr.forEach(item => ...)` for one group (lines 249-263). -/
def fixedItem (P : DateParser) (group : String) (item : JVal) : Option (List Event) :=
  if !truthy item then some []
  else
    (fixedIso P item).map fun iso =>
      pushEvent (get item "name") iso (.obj (spread (ownProps item) [("group", .str group)]))

/-- The body of `['holidays', 'non_holidays'].forEach(group => ...)` (lines 246-265). -/
def fixedGroup (P : DateParser) (fixed : JVal) (group : String) : Option (List Event) :=
  match get fixed group with
  | .arr items => forEachEvents (fixedItem P group) items
  | _ => some []

/-- Section 1 (lines 245-266). -/
def fixedSection (P : DateParser) (data : JVal) : Option (List Event) :=
  if truthy (get data "fixed_holidays") then
    match fixedGroup P (get data "fixed_holidays") "holidays" with
    | none => none
    | some hs =>
      match fixedGroup P (get data "fixed_holidays") "non_holidays" with
      | none => none
      | some ns => some (hs ++ ns)
  else some []

/-- The date of one variant of a movable festival (lines 276-286). -/
def variantIso (P : DateParser) (d : JVal) : Option (Option String) :=
  match get d "date" with
  | .str s =>
    if isISO s then some (some s)
    else if truthy (get d "year") && isMMDD s then
      (toStr (get d "year")).map fun y => some (y ++ "-" ++ s)
    else if truthy (get d "year") && isDefined (get d "month") && truthy (get d "day") then
      ensureISODate P
        (.obj [("year", get d "year"), ("month", get d "month"), ("day", get d "day")]) .null
    else ensureISODate P (.str s) (orElse (get d "year") .null)
  | _ =>
    if truthy (get d "year") && isDefined (get d "month") && truthy (get d "day") then
      ensureISODate P
        (.obj [("year", get d "year"), ("month", get d "month"), ("day", get d "day")]) .null
    else some none

/-- The body of `f.dates.forEach(d => ...)` (lines 274-288). -/
def variantItem (P : DateParser) (f d : JVal) : Option (List Event) :=
  if !truthy d then some []
  else
    (variantIso P d).map fun iso =>
      pushEvent (get f "name") iso (.obj (spread (ownProps f) (ownProps d)))

/-- The body of `data.movable_festivals.forEach(f => ...)` (lines 270-293). -/
def festivalItem (P : DateParser) (f : JVal) : Option (List Event) :=
  if !truthy f then some []
  else
    match get f "dates" with
    | .arr ds => forEachEvents (variantItem P f) ds
    | _ =>
      match get f "date" with
      | .str s => (ensureISODate P (.str s) .null).map fun iso => pushEvent (get f "name") iso f
      | _ => some []

/-- Section 2 (lines 268-294). -/
def movableSection (P : DateParser) (data : JVal) : Option (List Event) :=
  match get data "movable_festivals" with
  | .arr fs => forEachEvents (festivalItem P) fs
  | _ => some []

/-- The array `out` when the two sections have run (lines 244-294). -/
def accumulate (P : DateParser) (data : JVal) : Option (List Event) :=
  match fixedSection P data with
  | none => none
  | some fixed =>
    match movableSection P data with
    | none => none
    | some movable => some (fixed ++ movable)

/-- The deduplication key, the template `name::date`. -/
def eventKey (e : Event) : Option String :=
  (toStr e.name).map fun n => n ++ "::" ++ e.date

/-- The deduplication loop (lines 297-305), `seen` being the keys added so far. -/
def dedupe : List String → List Event → Option (List Event)
  | _, [] => some []
  | seen, e :: es =>
    match eventKey e with
    | none => none
    | some key =>
      if !seen.contains key && decide (e.date.data ≠ []) then
        (dedupe (key :: seen) es).map (e :: ·)
      else dedupe seen es

/-- UTF-16 code units of a character. -/
def utf16 (c : Char) : List Nat :=
  if c.toNat < 0x10000 then [c.toNat]
  else [0xD800 + (c.toNat - 0x10000) / 0x400, 0xDC00 + (c.toNat - 0x10000) % 0x400]

/-- UTF-16 code units of a string. -/
def codeUnits (s : String) : List Nat := s.data.flatMap utf16

/-- Lexicographic `a ≤ b` on code unit sequences. -/
def unitsLe : List Nat → List Nat → Bool
  | [], _ => true
  | _ :: _, [] => false
  | x :: xs, y :: ys => decide (x < y) || (decide (x = y) && unitsLe xs ys)

/-- String comparison `a <= b`. -/
def strLe (a b : String) : Bool := unitsLe (codeUnits a) (codeUnits b)

/-- String comparison `a > b`. -/
def strGt (a b : String) : Bool := !strLe a b

/-- The comparator `(a, b) => (a.date > b.date ? 1 : -1)`. -/
def compareDates (a b : Event) : Int := if strGt a.date b.date then 1 else -1

/-- Insertion of `x` in front of the first element it compares below. -/
def insertBy {α : Type} (cmp : α → α → Int) (x : α) : List α → List α
  | [] => [x]
  | y :: ys => if cmp x y < 0 then x :: y :: ys else y :: insertBy cmp x ys

/-- The method `Array.prototype.sort(cmp)` as an insertion sort, elements taken
left to right. -/
def sortBy {α : Type} (cmp : α → α → Int) (l : List α) : List α :=
  l.foldl (fun acc x => insertBy cmp x acc) []

/-- The function `flattenIndiaCommon(data)`: `some out` when it returns the list
`out`, `none` when it throws. -/
def flattenIndiaCommon (P : DateParser) (data : JVal) : Option (List Event) :=
  if !truthy data then some []
  else
    match data with
    | .arr _ | .obj _ =>
      match accumulate P data with
      | none => none
      | some out =>
        match dedupe [] out with
        | none => none
        | some filtered => some (sortBy compareDates filtered)
    | _ => some []

/-! ## Auxiliary notions and sample documents -/

/-- Dates in non-decreasing order, every pair of positions compared. -/
def DateSorted (l : List Event) : Prop :=
  l.Pairwise fun a b => strLe a.date b.date = true

/-- A host parser that recognises no text. -/
def rejectAll : DateParser := fun _ => none

/-- A calendar with a repeated entry: "Holi" on 2025-03-14 appears in both
groups, and two further dates lie on either side of it. -/
def docRepeated : JVal :=
  .obj [("fixed_holidays", .obj [
          ("holidays", .arr [
            .obj [("name", .str "Holi"), ("date", .str "2025-03-14"), ("overview", .str "first")],
            .obj [("name", .str "Republic Day"), ("date", .str "2025-01-26")]]),
          ("non_holidays", .arr [
            .obj [("name", .str "Holi"), ("date", .str "2025-03-14"), ("overview", .str "second")]])]),
        ("movable_festivals", .arr [
          .obj [("name", .str "Diwali"), ("dates", .arr [
            .obj [("year", .num 2025), ("date", .str "10-20")]])]])]

/-- The list returned for `docRepeated`. -/
def outRepeated : List Event :=
  [ { name := .str "Republic Day", date := "2025-01-26", type := .str "festival",
      overview := .str "", color := .str "#ff8a5b", source := .str "india_common" },
    { name := .str "Holi", date := "2025-03-14", type := .str "festival",
      overview := .str "first", color := .str "#ff8a5b", source := .str "india_common" },
    { name := .str "Diwali", date := "2025-10-20", type := .str "festival",
      overview := .str "", color := .str "#ff8a5b", source := .str "india_common" } ]

/-- A fixed holiday in the group `holidays` that carries its own type. -/
def docOwnType : JVal :=
  .obj [("fixed_holidays", .obj [
    ("holidays", .arr [
      .obj [("name", .str "X"), ("date", .str "2025-03-10"), ("type", .str "observance")]])])]

/-- A fixed holiday given by fields whose year is not numeric. -/
def docBadYear : JVal :=
  .obj [("fixed_holidays", .obj [
    ("holidays", .arr [
      .obj [("name", .str "Bad"), ("year", .str "x"), ("month", .num 1), ("day", .num 1)]])])]

/-- A fixed holiday given by fields whose year has three digits. -/
def docEarlyYear : JVal :=
  .obj [("fixed_holidays", .obj [
    ("holidays", .arr [
      .obj [("name", .str "Old"), ("year", .num 800), ("month", .num 1), ("day", .num 1)]])])]

/-- A movable festival whose variant has a two-digit year. -/
def docShortYear : JVal :=
  .obj [("movable_festivals", .arr [
    .obj [("name", .str "Diwali"), ("dates", .arr [
      .obj [("year", .num 24), ("date", .str "11-01")]])]])]

/-- The record `{year: y, month: m, day: d}`. -/
def structuredDate (y m d : Int) : JVal :=
  .obj [("year", .num y), ("month", .num m), ("day", .num d)]

/-- What `ensureISODate` returns for a numeric year `y`, month index `k` and day
`d`: `null` for a zero year, the formatted `new Date(y, k, d)` otherwise, a zero
day standing for the first. -/
def dateAtIndex (y k d : Int) : Option (Option String) :=
  if y = 0 then some none
  else some (some (formatDate (makeDate y k (if d = 0 then 1 else d))))

/-- A parent festival that carries a type. -/
def parentWithType : Props :=
  [("name", .str "Diwali"), ("type", .str "festival"), ("overview", .str "Festival of lights")]

/-- The same parent festival without a type. -/
def parentNoType : Props :=
  [("name", .str "Diwali"), ("overview", .str "Festival of lights")]

/-- A date variant that supplies its own type. -/
def variantWithType : JVal :=
  .obj [("year", .num 2024), ("date", .str "11-01"), ("type", .str "holiday")]

/-- The festival of Scenario C, variants listed latest first. -/
def diwaliProps : Props :=
  [("name", .str "Diwali"), ("dates", .arr [
    .obj [("year", .num 2025), ("date", .str "10-20")],
    .obj [("year", .num 2024), ("date", .str "11-01")]])]

/-- The date `Y-MM-DD` of a variant given as a year and a month-day string. -/
def joinedDate (v : Int × String) : String := toString v.1 ++ "-" ++ v.2

/-- Test `typeof v === 'object'` for a value that is not `null`. -/
def isRecord : JVal → Bool
  | .arr _ => true
  | .obj _ => true
  | _ => false

/-- A fixed holiday whose name is an object with an own `toString` property. -/
def docNameObject : JVal :=
  .obj [("fixed_holidays", .obj [
    ("holidays", .arr [
      .obj [("name", .obj [("toString", .num 1)]), ("date", .str "2025-03-10")]])])]

/-- A record with neither section in usable shape. -/
def docNoSections : JVal :=
  .obj [("title", .str "India"), ("movable_festivals", .str "none")]

/-- A non-empty date that does not contain the colon of the key separator. -/
def KeySafe (d : String) : Prop := d.data ≠ [] ∧ ':' ∉ d.data

/-- A group of `fixed_holidays` other than the two the program reads. -/
def docRegional : JVal :=
  .obj [("fixed_holidays", .obj [
    ("regional", .arr [.obj [("name", .str "X"), ("date", .str "2025-03-10")]])])]

/-- Two fixed holidays on one date whose names are the number 5 and the text "5". -/
def docNumberName : JVal :=
  .obj [("fixed_holidays", .obj [
    ("holidays", .arr [
      .obj [("name", .num 5), ("date", .str "2025-03-10")],
      .obj [("name", .str "5"), ("date", .str "2025-03-10")]])])]

/-- A host parser that reads every text as 26 January 2001. -/
def parseAsJan26 : DateParser := fun _ => some (2001, 0, 26)

/-- The colour `pushEvent` falls back to, read off the metadata's own `type`. -/
def ownTypeColor (t : JVal) : JVal :=
  if strictEqStr t "holiday" then .str "#18b93f" else .str "#ff8a5b"

/-- Scenario B: an entry of the group `non_holidays` without type or colour. -/
def docNonHoliday : JVal :=
  .obj [("fixed_holidays", .obj [
    ("non_holidays", .arr [.obj [("name", .str "X"), ("date", .str "2025-03-10")]])])]

/-- A value that is neither an array nor an object. -/
def isPrimitive : JVal → Bool
  | .arr _ => false
  | .obj _ => false
  | _ => true

/-- The property names whose values the program converts to text or to a number. -/
def isConvertedKey (k : String) : Bool :=
  k = "name" || k = "year" || k = "month" || k = "day"

mutual
/-- Every value bound to `name`, `year`, `month` or `day`, anywhere inside the
value, is a primitive. -/
def primitiveFields : JVal → Bool
  | .arr xs => primitiveFieldsList xs
  | .obj kvs => primitiveFieldsProps kvs
  | _ => true
/-- Every element of the list has `primitiveFields`. -/
def primitiveFieldsList : List JVal → Bool
  | [] => true
  | x :: xs => primitiveFields x && primitiveFieldsList xs
/-- Every binding of the property list is a primitive when its key is converted,
and has `primitiveFields`. -/
def primitiveFieldsProps : List (String × JVal) → Bool
  | [] => true
  | (k, v) :: rest =>
    (!isConvertedKey k || isPrimitive v) && primitiveFields v && primitiveFieldsProps rest
end

/-- The four converted properties of a value are primitives. -/
def ConvPrimitive (v : JVal) : Prop :=
  isPrimitive (get v "name") = true ∧ isPrimitive (get v "year") = true ∧
    isPrimitive (get v "month") = true ∧ isPrimitive (get v "day") = true

/-- A document with string names and numeric years, and an unread property that
holds an object with an own `toString`. -/
def docPrimitive : JVal :=
  .obj [("fixed_holidays", .obj [
          ("holidays", .arr [
            .obj [("name", .str "Pongal"), ("year", .num 2025), ("month", .num 1),
                  ("day", .num 14), ("extra", .obj [("toString", .num 1)])]])]),
        ("movable_festivals", .arr [
          .obj [("name", .str "Diwali"), ("dates", .arr [
            .obj [("year", .num 2025), ("date", .str "10-20")]])]])]

/-- Three fixed holidays on one date, named by the number 5 and twice by the
text "5". -/
def docNumberNameTwice : JVal :=
  .obj [("fixed_holidays", .obj [
    ("holidays", .arr [
      .obj [("name", .num 5), ("date", .str "2025-03-10")],
      .obj [("name", .str "5"), ("date", .str "2025-03-10")],
      .obj [("name", .str "5"), ("date", .str "2025-03-10")]])])]

/-! ## Quiz score submission (lines 82-121) -/

/-- The `quiz_scores` table as a state: at most one score for each row key, the
key standing for the pair `(user_id, quiz_name)` as the database identifies it. -/
abbrev ScoreTable (K : Type) := K → Option Int

/-- The responses of `POST /api/quiz/submit`. -/
inductive SubmitReply where
  | badRequest
  | updated (newScore : Int)
  | ignored
  | inserted
  | failed
  deriving DecidableEq

/-- The handler of `POST /api/quiz/submit` on a request body and a table, the
database executing each statement: the reply and the table afterwards.
`rowKey` maps the bound parameters `user_id` and `quiz` to the row they select.
Destructuring a missing body throws, which the handler answers with status 500. -/
def submitScore {K : Type} [DecidableEq K] (rowKey : JVal → JVal → K) (body : JVal)
    (t : ScoreTable K) : SubmitReply × ScoreTable K :=
  match body with
  | .undefined => (.failed, t)
  | .null => (.failed, t)
  | _ =>
    let user_id := get body "user_id"
    let quiz := orElse (get body "quiz_name") (.str "default")
    if !truthy user_id then (.badRequest, t)
    else
      match get body "score" with
      | .num score =>
        match t (rowKey user_id quiz) with
        | some oldScore =>
          if score > oldScore then
            (.updated score, Function.update t (rowKey user_id quiz) (some score))
          else (.ignored, t)
        | none => (.inserted, Function.update t (rowKey user_id quiz) (some score))
      | _ => (.badRequest, t)

/-- Row keys as the string forms of the two parameters. -/
def textKey (u q : JVal) : Option String × Option String := (toStr u, toStr q)

/-- A table holding the score 40 of user 7 for the quiz `default`. -/
def sampleTable : ScoreTable (Option String × Option String) :=
  fun k => if k = (some "7", some "default") then some 40 else none

/-- A submission of the score 55 by user 7 with no quiz name. -/
def sampleSubmission : JVal := .obj [("user_id", .num 7), ("score", .num 55)]

/-- Two movable festivals with string names whose keys coincide: the second
variant's year is a text containing the key separator. -/
def docKeyClash : JVal :=
  .obj [("movable_festivals", .arr [
    .obj [("name", .str "x::y"), ("dates", .arr [.obj [("date", .str "2024-11-01")]])],
    .obj [("name", .str "x"), ("dates", .arr [
      .obj [("year", .str "y::2024"), ("date", .str "11-01")]])]])]

/-! ## Ordering of strings -/

theorem unitsLe_refl (a : List Nat) : unitsLe a a = true := by
  induction a with
  | nil => rfl
  | cons x xs ih => simp [unitsLe, ih]

theorem unitsLe_total (a b : List Nat) : unitsLe a b = true ∨ unitsLe b a = true := by
  induction a generalizing b with
  | nil => left; rfl
  | cons x xs ih =>
    cases b with
    | nil => right; rfl
    | cons y ys =>
      simp only [unitsLe, Bool.or_eq_true, Bool.and_eq_true, decide_eq_true_eq]
      rcases Nat.lt_trichotomy x y with h | h | h
      · exact Or.inl (Or.inl h)
      · subst h
        rcases ih ys with h1 | h1
        · exact Or.inl (Or.inr ⟨rfl, h1⟩)
        · exact Or.inr (Or.inr ⟨rfl, h1⟩)
      · exact Or.inr (Or.inl h)

theorem unitsLe_trans (a b c : List Nat) (hab : unitsLe a b = true)
    (hbc : unitsLe b c = true) : unitsLe a c = true := by
  induction a generalizing b c with
  | nil => rfl
  | cons x xs ih =>
    cases b with
    | nil => simp [unitsLe] at hab
    | cons y ys =>
      cases c with
      | nil => simp [unitsLe] at hbc
      | cons z zs =>
        simp only [unitsLe, Bool.or_eq_true, Bool.and_eq_true, decide_eq_true_eq] at hab hbc ⊢
        rcases hab with h1 | ⟨h1, h2⟩
        · rcases hbc with h3 | ⟨h3, _⟩
          · exact Or.inl (Nat.lt_trans h1 h3)
          · exact Or.inl (h3 ▸ h1)
        · rcases hbc with h3 | ⟨h3, h4⟩
          · exact Or.inl (h1 ▸ h3)
          · exact Or.inr ⟨h1.trans h3, ih ys zs h2 h4⟩

theorem strLe_total (a b : String) : strLe a b = true ∨ strLe b a = true :=
  unitsLe_total _ _

theorem strLe_trans {a b c : String} (hab : strLe a b = true) (hbc : strLe b c = true) :
    strLe a c = true :=
  unitsLe_trans _ _ _ hab hbc

/-- The comparator is negative exactly when the first date is not above the second. -/
theorem compareDates_neg_iff (a b : Event) : compareDates a b < 0 ↔ strLe a.date b.date = true := by
  unfold compareDates strGt
  cases strLe a.date b.date <;> simp

/-! ## The sort -/

theorem insertBy_perm {α : Type} (cmp : α → α → Int) (x : α) (l : List α) :
    (insertBy cmp x l).Perm (x :: l) := by
  induction l with
  | nil => exact List.Perm.refl _
  | cons y ys ih =>
    unfold insertBy
    split
    · exact List.Perm.refl _
    · exact (List.Perm.cons y ih).trans (List.Perm.swap x y ys)

theorem sortBy_fold_perm {α : Type} (cmp : α → α → Int) (l acc : List α) :
    (l.foldl (fun acc x => insertBy cmp x acc) acc).Perm (l ++ acc) := by
  induction l generalizing acc with
  | nil => exact List.Perm.refl _
  | cons x xs ih =>
    simp only [List.foldl_cons, List.cons_append]
    refine (ih _).trans ?_
    exact (List.Perm.append_left xs (insertBy_perm cmp x acc)).trans List.perm_middle

theorem sortBy_perm {α : Type} (cmp : α → α → Int) (l : List α) : (sortBy cmp l).Perm l := by
  have h := sortBy_fold_perm cmp l []
  simpa [sortBy] using h

theorem insertBy_sorted (x : Event) (l : List Event) (h : DateSorted l) :
    DateSorted (insertBy compareDates x l) := by
  induction l with
  | nil => simp [insertBy, DateSorted]
  | cons y ys ih =>
    unfold DateSorted at h ih ⊢
    rw [List.pairwise_cons] at h
    unfold insertBy
    split
    · rename_i hlt
      have hxy : strLe x.date y.date = true := (compareDates_neg_iff x y).1 hlt
      rw [List.pairwise_cons, List.pairwise_cons]
      refine ⟨?_, h.1, h.2⟩
      intro z hz
      rcases List.mem_cons.1 hz with rfl | hz
      · exact hxy
      · exact strLe_trans hxy (h.1 z hz)
    · rename_i hlt
      have hyx : strLe y.date x.date = true := by
        rcases strLe_total x.date y.date with h1 | h1
        · exact absurd ((compareDates_neg_iff x y).2 h1) hlt
        · exact h1
      rw [List.pairwise_cons]
      refine ⟨?_, ih h.2⟩
      intro z hz
      rcases List.mem_cons.1 ((insertBy_perm compareDates x ys).mem_iff.1 hz) with rfl | hz
      · exact hyx
      · exact h.1 z hz

theorem sortBy_fold_sorted (l acc : List Event) (h : DateSorted acc) :
    DateSorted (l.foldl (fun acc x => insertBy compareDates x acc) acc) := by
  induction l generalizing acc with
  | nil => exact h
  | cons x xs ih => exact ih _ (insertBy_sorted x acc h)

theorem sortBy_sorted (l : List Event) : DateSorted (sortBy compareDates l) :=
  sortBy_fold_sorted l [] List.Pairwise.nil

/-! ## The deduplication loop -/

theorem dedupe_cons_some {seen : List String} {e : Event} {es r : List Event}
    (h : dedupe seen (e :: es) = some r) :
    ∃ key, eventKey e = some key ∧
      ((seen.contains key = false ∧ e.date.data ≠ [] ∧
          ∃ r1, dedupe (key :: seen) es = some r1 ∧ r = e :: r1) ∨
        ((seen.contains key = true ∨ e.date.data = []) ∧ dedupe seen es = some r)) := by
  unfold dedupe at h
  cases hk : eventKey e with
  | none => simp [hk] at h
  | some key =>
    refine ⟨key, rfl, ?_⟩
    simp only [hk] at h
    by_cases hc : seen.contains key = true
    · right
      simp only [hc, Bool.not_true, Bool.false_and] at h
      exact ⟨Or.inl hc, by simpa using h⟩
    · have hc2 : seen.contains key = false := by simpa using hc
      by_cases hd : e.date.data = []
      · right
        simp only [hd, ne_eq, not_true_eq_false, decide_False, Bool.and_false] at h
        exact ⟨Or.inr hd, by simpa using h⟩
      · left
        simp only [hc2, Bool.not_false, ne_eq, hd, not_false_eq_true, decide_True,
          Bool.and_self, if_true, Option.map_eq_some'] at h
        obtain ⟨r1, h1, h2⟩ := h
        exact ⟨hc2, hd, r1, h1, h2.symm⟩

theorem dedupe_sublist {seen : List String} {l r : List Event}
    (h : dedupe seen l = some r) : r.Sublist l := by
  induction l generalizing seen r with
  | nil =>
    simp [dedupe] at h
    subst h
    exact List.Sublist.refl _
  | cons e es ih =>
    obtain ⟨key, _, hcase⟩ := dedupe_cons_some h
    rcases hcase with ⟨_, _, r1, h1, rfl⟩ | ⟨_, h1⟩
    · exact (ih h1).cons₂ e
    · exact (ih h1).cons e

theorem dedupe_fresh {seen : List String} {l r : List Event}
    (h : dedupe seen l = some r) :
    ∀ e ∈ r, e.date.data ≠ [] ∧ ∃ k, eventKey e = some k ∧ k ∉ seen := by
  induction l generalizing seen r with
  | nil =>
    simp [dedupe] at h
    subst h
    simp
  | cons e es ih =>
    obtain ⟨key, hk, hcase⟩ := dedupe_cons_some h
    rcases hcase with ⟨hc, hd, r1, h1, rfl⟩ | ⟨_, h1⟩
    · intro x hx
      rcases List.mem_cons.1 hx with rfl | hx
      · refine ⟨hd, key, hk, ?_⟩
        intro hmem
        have : seen.contains key = true := by simpa using hmem
        rw [hc] at this
        exact Bool.noConfusion this
      · obtain ⟨hxd, k, hxk, hnot⟩ := ih h1 x hx
        exact ⟨hxd, k, hxk, fun hm => hnot (List.mem_cons_of_mem _ hm)⟩
    · exact ih h1

theorem dedupe_keys_distinct {seen : List String} {l r : List Event}
    (h : dedupe seen l = some r) :
    r.Pairwise fun a b => eventKey a ≠ eventKey b := by
  induction l generalizing seen r with
  | nil =>
    simp [dedupe] at h
    subst h
    exact List.Pairwise.nil
  | cons e es ih =>
    obtain ⟨key, hk, hcase⟩ := dedupe_cons_some h
    rcases hcase with ⟨_, _, r1, h1, rfl⟩ | ⟨_, h1⟩
    · rw [List.pairwise_cons]
      refine ⟨?_, ih h1⟩
      intro x hx heq
      obtain ⟨_, k, hxk, hnot⟩ := dedupe_fresh h1 x hx
      rw [hk, hxk] at heq
      exact hnot (by simp [Option.some.inj heq])
    · exact ih h1

/-- Equal name and date give equal keys. -/
theorem eventKey_congr {a b : Event} (hn : a.name = b.name) (hd : a.date = b.date) :
    eventKey a = eventKey b := by
  unfold eventKey
  rw [hn, hd]

theorem dedupe_first {seen : List String} {l r : List Event}
    (h : dedupe seen l = some r) :
    ∀ e ∈ r, ∃ pre post, l = pre ++ e :: post ∧
      ∀ x ∈ pre, ¬ (x.name = e.name ∧ x.date = e.date) := by
  induction l generalizing seen r with
  | nil =>
    simp [dedupe] at h
    subst h
    simp
  | cons e es ih =>
    obtain ⟨key, hk, hcase⟩ := dedupe_cons_some h
    rcases hcase with ⟨_, _, r1, h1, rfl⟩ | ⟨hdrop, h1⟩
    · intro x hx
      rcases List.mem_cons.1 hx with rfl | hx
      · exact ⟨[], es, rfl, by simp⟩
      · obtain ⟨pre, post, hes, hpre⟩ := ih h1 x hx
        refine ⟨e :: pre, post, by rw [hes]; rfl, ?_⟩
        intro y hy
        rcases List.mem_cons.1 hy with hye | hy
        · rw [hye]
          rintro ⟨hn, hd⟩
          obtain ⟨_, k, hxk, hnot⟩ := dedupe_fresh h1 x hx
          have := eventKey_congr hn hd
          rw [hk, hxk] at this
          exact hnot (by simp [Option.some.inj this])
        · exact hpre y hy
    · intro x hx
      obtain ⟨pre, post, hes, hpre⟩ := ih h1 x hx
      refine ⟨e :: pre, post, by rw [hes]; rfl, ?_⟩
      intro y hy
      rcases List.mem_cons.1 hy with hye | hy
      · rw [hye]
        rintro ⟨hn, hd⟩
        obtain ⟨hxd, k, hxk, hnot⟩ := dedupe_fresh h1 x hx
        rcases hdrop with hc | hempty
        · have := eventKey_congr hn hd
          rw [hk, hxk] at this
          have hkk : key = k := Option.some.inj this
          apply hnot
          have : key ∈ seen := by simpa using hc
          exact hkk ▸ this
        · exact hxd (hd ▸ hempty)
      · exact hpre y hy

/-! ## The shape of a run -/

/-- A returned list is the sorted deduplication of the accumulated events. -/
theorem flatten_some {P : DateParser} {data : JVal} {out : List Event}
    (h : flattenIndiaCommon P data = some out) :
    ∃ acc filtered, accumulate P data = some acc ∧ dedupe [] acc = some filtered ∧
      out = sortBy compareDates filtered := by
  unfold flattenIndiaCommon at h
  cases data with
  | undefined => exact ⟨[], [], rfl, rfl, by simpa [truthy] using h.symm⟩
  | null => exact ⟨[], [], rfl, rfl, by simpa [truthy] using h.symm⟩
  | bool b => exact ⟨[], [], rfl, rfl, by cases b <;> simpa [truthy] using h.symm⟩
  | num n =>
    refine ⟨[], [], rfl, rfl, ?_⟩
    by_cases hn : n = 0 <;> simpa [truthy, hn] using h.symm
  | str s =>
    refine ⟨[], [], rfl, rfl, ?_⟩
    by_cases hs : s.data = [] <;> simpa [truthy, hs] using h.symm
  | arr xs =>
    simp only [truthy, Bool.not_true, Bool.false_eq_true, if_false] at h
    cases hacc : accumulate P (.arr xs) with
    | none => simp [hacc] at h
    | some acc =>
      simp only [hacc] at h
      cases hded : dedupe [] acc with
      | none => simp [hded] at h
      | some filtered =>
        simp only [hded, Option.some.injEq] at h
        exact ⟨acc, filtered, rfl, hded, h.symm⟩
  | obj kvs =>
    simp only [truthy, Bool.not_true, Bool.false_eq_true, if_false] at h
    cases hacc : accumulate P (.obj kvs) with
    | none => simp [hacc] at h
    | some acc =>
      simp only [hacc] at h
      cases hded : dedupe [] acc with
      | none => simp [hded] at h
      | some filtered =>
        simp only [hded, Option.some.injEq] at h
        exact ⟨acc, filtered, rfl, hded, h.symm⟩

/-! ## Claims -/

/-- Claim C4. In a list returned by `flattenIndiaCommon` no two events at
distinct positions have both the same name and the same date. -/
theorem flatten_no_repeated_name_date (P : DateParser) (data : JVal) (out : List Event)
    (h : flattenIndiaCommon P data = some out) :
    ∀ (i j : Nat) (hi : i < out.length) (hj : j < out.length), i ≠ j →
      ¬ ((out.get ⟨i, hi⟩).name = (out.get ⟨j, hj⟩).name ∧
          (out.get ⟨i, hi⟩).date = (out.get ⟨j, hj⟩).date) := by
  obtain ⟨acc, filtered, _, hded, rfl⟩ := flatten_some h
  have hpw : (sortBy compareDates filtered).Pairwise
      fun a b => ¬ (a.name = b.name ∧ a.date = b.date) := by
    have h1 : filtered.Pairwise fun a b => ¬ (a.name = b.name ∧ a.date = b.date) :=
      (dedupe_keys_distinct hded).imp fun hne hab => hne (eventKey_congr hab.1 hab.2)
    refine (List.Perm.pairwise_iff ?_ (sortBy_perm compareDates filtered)).2 h1
    intro x y hxy hyx
    exact hxy ⟨hyx.1.symm, hyx.2.symm⟩
  rw [List.pairwise_iff_get] at hpw
  intro i j hi hj hij
  rcases Nat.lt_or_gt_of_ne hij with hlt | hgt
  · exact hpw ⟨i, hi⟩ ⟨j, hj⟩ hlt
  · intro hab
    exact hpw ⟨j, hj⟩ ⟨i, hi⟩ hgt ⟨hab.1.symm, hab.2.symm⟩

/-- Instance of claim C4 on `docRepeated`. -/
theorem flatten_no_repeated_name_date_witness :
    flattenIndiaCommon rejectAll docRepeated = some outRepeated ∧
      ∀ (i j : Nat) (hi : i < outRepeated.length) (hj : j < outRepeated.length), i ≠ j →
        ¬ ((outRepeated.get ⟨i, hi⟩).name = (outRepeated.get ⟨j, hj⟩).name ∧
            (outRepeated.get ⟨i, hi⟩).date = (outRepeated.get ⟨j, hj⟩).date) :=
  ⟨rfl, flatten_no_repeated_name_date rejectAll docRepeated outRepeated rfl⟩

/-- Claim C5. A list returned by `flattenIndiaCommon` is non-decreasing by date
under string comparison: each event's date is at most the next event's date,
although the comparator answers `-1` for two equal dates. -/
theorem flatten_dates_ascending (P : DateParser) (data : JVal) (out : List Event)
    (h : flattenIndiaCommon P data = some out) :
    List.Chain' (fun a b => strLe a.date b.date = true) out ∧
      ∀ a : Event, compareDates a a = -1 := by
  obtain ⟨acc, filtered, _, _, rfl⟩ := flatten_some h
  refine ⟨(sortBy_sorted filtered).chain', ?_⟩
  intro a
  simp [compareDates, strGt, strLe, unitsLe_refl]

/-- Instance of claim C5 on `docRepeated`. -/
theorem flatten_dates_ascending_witness :
    flattenIndiaCommon rejectAll docRepeated = some outRepeated ∧
      (List.Chain' (fun a b => strLe a.date b.date = true) outRepeated ∧
        ∀ a : Event, compareDates a a = -1) :=
  ⟨rfl, flatten_dates_ascending rejectAll docRepeated outRepeated rfl⟩

/-- Every event kept in the output of `flattenIndiaCommon` is the first
accumulated event, in traversal order, that has its name and its date: the
accumulated list splits around the kept record and nothing before it has both
the same name and the same date. It does not say that the first event of a name
and date is kept. -/
theorem flatten_keeps_first (P : DateParser) (data : JVal) (out : List Event)
    (h : flattenIndiaCommon P data = some out) :
    ∃ fixed movable, fixedSection P data = some fixed ∧ movableSection P data = some movable ∧
      ∀ e ∈ out, ∃ pre post, fixed ++ movable = pre ++ e :: post ∧
        ∀ x ∈ pre, ¬ (x.name = e.name ∧ x.date = e.date) := by
  obtain ⟨acc, filtered, hacc, hded, rfl⟩ := flatten_some h
  unfold accumulate at hacc
  cases hf : fixedSection P data with
  | none => simp [hf] at hacc
  | some fixed =>
    simp only [hf] at hacc
    cases hm : movableSection P data with
    | none => simp [hm] at hacc
    | some movable =>
      simp only [hm, Option.some.injEq] at hacc
      refine ⟨fixed, movable, rfl, rfl, ?_⟩
      intro e he
      rw [hacc]
      exact dedupe_first hded e ((sortBy_perm compareDates filtered).mem_iff.1 he)

/-- Claim C10, evaluated where it fails. Three fixed holidays on one date are
named `5`, `"5"` and `"5"`. The two entries named `"5"` share name and date, so
the first of them should be the one kept; all three have the key `5::2025-03-10`
and only the entry named by the number is returned. -/
theorem first_of_equal_pairs_dropped (P : DateParser) :
    (accumulate P docNumberNameTwice).map (fun acc => acc.map fun e => (e.name, e.date))
        = some [(.num 5, "2025-03-10"), (.str "5", "2025-03-10"), (.str "5", "2025-03-10")] ∧
      (accumulate P docNumberNameTwice).map (fun acc => acc.map eventKey)
        = some [some "5::2025-03-10", some "5::2025-03-10", some "5::2025-03-10"] ∧
      (flattenIndiaCommon P docNumberNameTwice).map (fun out => out.map fun e => (e.name, e.date))
        = some [(.num 5, "2025-03-10")] :=
  ⟨rfl, rfl, rfl⟩

/-- Claim C1, evaluated where it fails. A fixed holiday of the group `holidays`
with no `isHoliday` flag and its own type "observance" is emitted with type
"holiday": the entry's own type, being truthy, satisfies the condition of the
conditional operator. -/
theorem fixed_entry_own_type_replaced (P : DateParser) :
    flattenIndiaCommon P docOwnType =
      some [{ name := .str "X", date := "2025-03-10", type := .str "holiday",
              overview := .str "", color := .str "#ff8a5b",
              source := .str "india_common" }] :=
  rfl

/-- Claim C6, evaluated where it fails. A non-numeric year yields the date
"NaN-NaN-NaN", a three-digit year the date "800-01-01", a two-digit year joined
to a month-day string the date "24-11-01"; none has the form YYYY-MM-DD and each
is emitted. -/
theorem emitted_date_not_canonical (P : DateParser) :
    ((flattenIndiaCommon P docBadYear).map fun out => out.map fun e => e.date)
        = some ["NaN-NaN-NaN"] ∧
      ((flattenIndiaCommon P docEarlyYear).map fun out => out.map fun e => e.date)
        = some ["800-01-01"] ∧
      ((flattenIndiaCommon P docShortYear).map fun out => out.map fun e => e.date)
        = some ["24-11-01"] ∧
      isISO "NaN-NaN-NaN" = false ∧ isISO "800-01-01" = false ∧ isISO "24-11-01" = false :=
  ⟨rfl, rfl, rfl, rfl, rfl, rfl⟩

/-- Claim C3 as stated fails: the record with month 2 resolves to February, its
0-indexed form with month 1 to January. -/
theorem month_forms_disagree :
    ensureISODate rejectAll (structuredDate 2025 2 5) .null = some (some "2025-02-05") ∧
      ensureISODate rejectAll (structuredDate 2025 1 5) .null = some (some "2025-01-05") ∧
      ensureISODate rejectAll (structuredDate 2025 2 5) .null ≠
        ensureISODate rejectAll (structuredDate 2025 1 5) .null := by
  refine ⟨rfl, rfl, ?_⟩
  rw [show ensureISODate rejectAll (structuredDate 2025 2 5) .null = some (some "2025-02-05")
        from rfl,
    show ensureISODate rejectAll (structuredDate 2025 1 5) .null = some (some "2025-01-05")
        from rfl]
  decide

/-- The record `{year: y, month: m, day: d}` is resolved at month index `m - 1`
when `m` lies in `1..12` and at month index `m` otherwise. -/
theorem ensureISODate_structured (P : DateParser) (y m d : Int) :
    ensureISODate P (structuredDate y m d) .null =
      dateAtIndex y (if 1 ≤ m ∧ m ≤ 12 then m - 1 else m) d := by
  have hy : get (structuredDate y m d) "year" = .num y := rfl
  have hm : get (structuredDate y m d) "month" = .num m := rfl
  have hd : get (structuredDate y m d) "day" = .num d := rfl
  have hdt : get (structuredDate y m d) "date" = .undefined := rfl
  have hthing : ensureISODate P (structuredDate y m d) .null =
      ensureISOObject (structuredDate y m d) .null := rfl
  rw [hthing]
  unfold ensureISOObject
  rw [hy, hm, hd, hdt]
  by_cases hrange : 1 ≤ m ∧ m ≤ 12
  · by_cases hy0 : y = 0 <;> by_cases hd0 : d = 0 <;>
      simp [shiftMonth, toNumber, orElse, truthy, dateOfFields, dateAtIndex, formatFields,
        JNum.isNaN, JNum.trunc, hrange, hy0, hd0]
  · by_cases hy0 : y = 0 <;> by_cases hd0 : d = 0 <;>
      simp [shiftMonth, toNumber, orElse, truthy, dateOfFields, dateAtIndex, formatFields,
        JNum.isNaN, JNum.trunc, hrange, hy0, hd0]

/-- Claim C3, amended. For a month `m` in `1..12` the record
`{year: y, month: m, day: d}` resolves to the date of month index `m - 1`; the
0-indexed record `{year: y, month: m - 1, day: d}` resolves to that same index
only for `m = 1`, and to month index `m - 2` for `m` in `2..12`, because its month
value then lies in `1..12` and is shifted as well. -/
theorem month_one_indexed (P : DateParser) (y d m : Int) (h1 : 1 ≤ m) (h12 : m ≤ 12) :
    ensureISODate P (structuredDate y m d) .null = dateAtIndex y (m - 1) d ∧
      ensureISODate P (structuredDate y (m - 1) d) .null =
        dateAtIndex y (if m = 1 then 0 else m - 2) d := by
  constructor
  · rw [ensureISODate_structured, if_pos ⟨h1, h12⟩]
  · rw [ensureISODate_structured]
    by_cases hm : m = 1
    · subst hm
      simp
    · have h2 : 1 ≤ m - 1 ∧ m - 1 ≤ 12 := by omega
      rw [if_pos h2, if_neg hm]
      congr 1
      omega

/-- Instance of the amended claim C3 at March 2025: month 3 is March, and the
0-indexed form with month 2 is February rather than March. -/
theorem month_one_indexed_witness :
    (1 : Int) ≤ 3 ∧ (3 : Int) ≤ 12 ∧
      ensureISODate rejectAll (structuredDate 2025 3 5) .null = dateAtIndex 2025 (3 - 1) 5 ∧
      ensureISODate rejectAll (structuredDate 2025 (3 - 1) 5) .null =
        dateAtIndex 2025 (if (3 : Int) = 1 then 0 else 3 - 2) 5 :=
  ⟨by decide, by decide, month_one_indexed rejectAll 2025 5 3 (by decide) (by decide)⟩

/-! ## Property lists -/

theorem lookup_append (k : String) (a b : Props) :
    lookup k (a ++ b) = if hasOwn k a = true then lookup k a else lookup k b := by
  induction a with
  | nil => simp [hasOwn]
  | cons p ps ih =>
    obtain ⟨k', v⟩ := p
    by_cases hk : k' = k
    · simp [lookup, hasOwn, hk]
    · simp [lookup, hasOwn, hk, ih]

/-- The pushed events depend on the metadata only through its property reads. -/
theorem pushEvent_congr (name : JVal) (iso : Option String) (q q' : Props)
    (h : ∀ key, lookup key q = lookup key q') :
    pushEvent name iso (.obj q) = pushEvent name iso (.obj q') := by
  simp only [pushEvent, eventType, eventColor, get, h]

/-- Claim C9. When a date variant supplies one of the fields type, overview,
description, color, source itself, the events emitted for it do not depend on
the parent festival's value of that field: two parents that agree on every other
property (one of them may lack the field) give the same events. -/
theorem variant_field_precedence (P : DateParser) (fk fk' : Props) (d : JVal) (k : String)
    (hk : k ∈ ["type", "overview", "description", "color", "source"])
    (hown : hasOwn k (ownProps d) = true)
    (hagree : ∀ key, key ≠ k → lookup key fk = lookup key fk') :
    variantItem P (.obj fk) d = variantItem P (.obj fk') d := by
  have hname : get (.obj fk) "name" = get (.obj fk') "name" := by
    apply hagree
    intro hkn
    subst hkn
    simp at hk
  have hmeta : ∀ key, lookup key (spread fk (ownProps d)) = lookup key (spread fk' (ownProps d)) := by
    intro key
    unfold spread
    rw [lookup_append, lookup_append]
    by_cases hkey : key = k
    · subst hkey
      simp [hown]
    · rw [hagree key hkey]
  unfold variantItem
  simp only [ownProps, hname]
  split
  · rfl
  · congr 1
    funext iso
    exact pushEvent_congr _ iso _ _ hmeta

/-- Instance of claim C9: the variant's type "holiday" is used whether or not the
parent carries a type. -/
theorem variant_field_precedence_witness :
    "type" ∈ ["type", "overview", "description", "color", "source"] ∧
      hasOwn "type" (ownProps variantWithType) = true ∧
      (∀ key, key ≠ "type" → lookup key parentWithType = lookup key parentNoType) ∧
      variantItem rejectAll (.obj parentWithType) variantWithType =
        variantItem rejectAll (.obj parentNoType) variantWithType :=
  have hagree : ∀ key, key ≠ "type" → lookup key parentWithType = lookup key parentNoType := by
    intro key hkey
    have hkey2 : ¬ ("type" = key) := fun h => hkey h.symm
    simp [parentWithType, parentNoType, lookup, hkey2]
  ⟨by decide, rfl, hagree,
    variant_field_precedence rejectAll parentWithType parentNoType variantWithType "type"
      (by decide) rfl hagree⟩

/-! ## Rendering of numbers -/

theorem natText_eq_toString (m : Nat) (h : m < 10 ^ 21) : natText m = toString m := by
  unfold natText
  rw [if_pos h]

/-- Below `10^21` in magnitude an integer is rendered by its decimal digits. -/
theorem numText_eq_toString (n : Int) (hlo : -(10 : Int) ^ 21 < n) (hhi : n < (10 : Int) ^ 21) :
    numText n = toString n := by
  cases n with
  | ofNat m =>
    have hm : m < 10 ^ 21 := by
      have : (m : Int) < (10 : Int) ^ 21 := hhi
      exact_mod_cast this
    show natText m = toString m
    exact natText_eq_toString m hm
  | negSucc m =>
    have hm : m + 1 < 10 ^ 21 := by
      have h1 : -(10 : Int) ^ 21 < -((m : Int) + 1) := by
        rw [← Int.negSucc_eq]
        exact hlo
      have h2 : ((m + 1 : Nat) : Int) < (10 : Int) ^ 21 := by
        push_cast
        omega
      exact_mod_cast h2
    show "-" ++ natText (m + 1) = "-" ++ toString (Nat.succ m)
    rw [natText_eq_toString _ hm]

/-! ## Variants given as a year and a month-day string -/

theorem isMMDD_data {s : String} (h : isMMDD s = true) : s.data.length = 5 := by
  unfold isMMDD at h
  split at h
  · rename_i heq
    rw [heq]
    rfl
  · exact Bool.noConfusion h

theorem isISO_data {s : String} (h : isISO s = true) : s.data.length = 10 := by
  unfold isISO at h
  split at h
  · rename_i heq
    rw [heq]
    rfl
  · exact Bool.noConfusion h

theorem isMMDD_not_isISO {s : String} (h : isMMDD s = true) : isISO s = false := by
  cases hiso : isISO s with
  | false => rfl
  | true =>
    have h5 := isMMDD_data h
    have h10 := isISO_data hiso
    omega

theorem data_ne_nil_of_ne_empty {n : String} (h : n ≠ "") : n.data ≠ [] := by
  intro hd
  apply h
  cases n
  simp_all

theorem joined_data_ne_nil (y s : String) : (y ++ "-" ++ s).data ≠ [] := by
  simp [String.data_append]

theorem get_ne_undefined_obj {d : JVal} {k : String} {v : JVal} (h : get d k = v)
    (hv : v ≠ .undefined) : ∃ kvs, d = .obj kvs := by
  cases d with
  | obj kvs => exact ⟨kvs, rfl⟩
  | _ => exact absurd h.symm (by simpa [get] using hv)

/-- A variant with a numeric non-zero year and a month-day string emits one
event, named after the festival and dated by joining the year to the string. -/
theorem variantItem_year_mmdd (P : DateParser) (fk : Props) (n : String) (d : JVal)
    (v : Int × String) (hn : n ≠ "") (hname : lookup "name" fk = .str n)
    (hy : get d "year" = .num v.1) (hd : get d "date" = .str v.2)
    (hy0 : v.1 ≠ 0) (hlo : -(10 : Int) ^ 21 < v.1) (hhi : v.1 < (10 : Int) ^ 21)
    (hfmt : isMMDD v.2 = true) :
    ∃ e, variantItem P (.obj fk) d = some [e] ∧ e.name = .str n ∧ e.date = joinedDate v := by
  obtain ⟨kvs, rfl⟩ := get_ne_undefined_obj hd (by simp)
  have hnd := data_ne_nil_of_ne_empty hn
  have hjd := joined_data_ne_nil (toString v.1) v.2
  have hjd2 : (joinedDate v).data ≠ [] := hjd
  have hiso : variantIso P (.obj kvs) = some (some (joinedDate v)) := by
    simp [variantIso, hd, hy, isMMDD_not_isISO hfmt, hfmt, truthy, toStr, hy0, joinedDate,
      numText_eq_toString v.1 hlo hhi]
  have hitem : variantItem P (.obj fk) (.obj kvs) =
      some (pushEvent (.str n) (some (joinedDate v)) (.obj (spread fk kvs))) := by
    simp [variantItem, truthy, hiso, get, hname, ownProps]
  rw [hitem]
  unfold pushEvent
  simp only [hjd2, if_false]
  exact ⟨_, rfl, by simp [orElse, truthy, hnd], rfl⟩

theorem forEach_variants (P : DateParser) (fk : Props) (n : String) (hn : n ≠ "")
    (hname : lookup "name" fk = .str n) (ds : List JVal) (vs : List (Int × String))
    (hvs : List.Forall₂ (fun d v => get d "year" = .num v.1 ∧ get d "date" = .str v.2) ds vs)
    (hfmt : ∀ v ∈ vs, 1000 ≤ v.1 ∧ v.1 ≤ 9999 ∧ isMMDD v.2 = true) :
    ∃ acc, forEachEvents (variantItem P (.obj fk)) ds = some acc ∧
      acc.map (fun e => e.date) = vs.map joinedDate ∧ ∀ e ∈ acc, e.name = .str n := by
  induction hvs with
  | nil => exact ⟨[], rfl, rfl, by simp⟩
  | @cons d v ds vs hdv _ ih =>
    obtain ⟨h1, h2, h3⟩ := hfmt v (List.mem_cons_self _ _)
    obtain ⟨e, he, hen, hed⟩ :=
      variantItem_year_mmdd P fk n d v hn hname hdv.1 hdv.2 (by omega)
        (lt_of_lt_of_le (by norm_num) h1) (lt_of_le_of_lt h2 (by norm_num)) h3
    obtain ⟨acc, hacc, hdates, hnames⟩ := ih fun w hw => hfmt w (List.mem_cons_of_mem _ hw)
    refine ⟨e :: acc, ?_, ?_, ?_⟩
    · simp [forEachEvents, he, hacc]
    · simp [hed, hdates]
    · intro x hx
      rcases List.mem_cons.1 hx with hxe | hx
      · rw [hxe]
        exact hen
      · exact hnames x hx

theorem key_append_cancel {n a b : String} (h : n ++ "::" ++ a = n ++ "::" ++ b) : a = b := by
  have hdata := congrArg String.data h
  simp only [String.data_append, List.append_assoc, List.append_cancel_left_eq] at hdata
  cases a
  cases b
  simp_all

/-- Events of one string name with distinct non-empty dates all survive deduplication. -/
theorem dedupe_distinct_dates (n : String) (l : List Event) (seen : List String)
    (hl : ∀ e ∈ l, e.name = .str n ∧ e.date.data ≠ [])
    (hnd : (l.map fun e => e.date).Nodup)
    (hseen : ∀ e ∈ l, n ++ "::" ++ e.date ∉ seen) :
    dedupe seen l = some l := by
  induction l generalizing seen with
  | nil => rfl
  | cons e es ih =>
    obtain ⟨hen, hed⟩ := hl e (List.mem_cons_self _ _)
    have hkey : eventKey e = some (n ++ "::" ++ e.date) := by simp [eventKey, hen, toStr]
    have hc : n ++ "::" ++ e.date ∉ seen := hseen e (List.mem_cons_self _ _)
    rw [List.map_cons, List.nodup_cons] at hnd
    have hrest : dedupe ((n ++ "::" ++ e.date) :: seen) es = some es := by
      apply ih
      · exact fun x hx => hl x (List.mem_cons_of_mem _ hx)
      · exact hnd.2
      · intro x hx hmem
        rcases List.mem_cons.1 hmem with heq | hmem
        · apply hnd.1
          rw [← key_append_cancel heq]
          exact List.mem_map_of_mem _ hx
        · exact hseen x (List.mem_cons_of_mem _ hx) hmem
    unfold dedupe
    simp [hkey, hc, hed, hrest]

/-- Claim C8. A document whose only content is one movable festival with a
non-empty name `n` and variants that each carry a four-digit year `Y` and a
month-day string `MM-DD`, the joined dates `Y-MM-DD` being pairwise distinct,
yields exactly one event per variant, each named `n` and dated `Y-MM-DD`, in
strictly ascending date order. -/
theorem movable_year_month_day (P : DateParser) (n : String) (fk : Props) (ds : List JVal)
    (vs : List (Int × String)) (hn : n ≠ "") (hname : lookup "name" fk = .str n)
    (hdates : lookup "dates" fk = .arr ds)
    (hvs : List.Forall₂ (fun d v => get d "year" = .num v.1 ∧ get d "date" = .str v.2) ds vs)
    (hfmt : ∀ v ∈ vs, 1000 ≤ v.1 ∧ v.1 ≤ 9999 ∧ isMMDD v.2 = true)
    (hdistinct : (vs.map joinedDate).Nodup) :
    ∃ out, flattenIndiaCommon P (.obj [("movable_festivals", .arr [.obj fk])]) = some out ∧
      (out.map fun e => e.date).Perm (vs.map joinedDate) ∧
      (∀ e ∈ out, e.name = .str n) ∧
      out.Pairwise fun a b => strLe a.date b.date = true ∧ a.date ≠ b.date := by
  obtain ⟨acc, hacc, hmap, hnames⟩ := forEach_variants P fk n hn hname ds vs hvs hfmt
  have haccum : accumulate P (.obj [("movable_festivals", .arr [.obj fk])]) = some acc := by
    have hf : festivalItem P (.obj fk) = some acc := by
      simp [festivalItem, truthy, get, hdates, hacc]
    simp [accumulate, fixedSection, movableSection, get, lookup, truthy, forEachEvents, hf]
  have hnonempty : ∀ e ∈ acc, e.name = .str n ∧ e.date.data ≠ [] := by
    intro e he
    refine ⟨hnames e he, ?_⟩
    have hmem : e.date ∈ vs.map joinedDate := hmap ▸ List.mem_map_of_mem (fun e => e.date) he
    obtain ⟨v, _, hv⟩ := List.mem_map.1 hmem
    rw [← hv]
    exact joined_data_ne_nil _ _
  have hded : dedupe [] acc = some acc :=
    dedupe_distinct_dates n acc [] hnonempty (hmap ▸ hdistinct) (by simp)
  refine ⟨sortBy compareDates acc, ?_, ?_, ?_, ?_⟩
  · simp [flattenIndiaCommon, truthy, haccum, hded]
  · rw [← hmap]
    exact (sortBy_perm compareDates acc).map _
  · intro e he
    exact hnames e ((sortBy_perm compareDates acc).mem_iff.1 he)
  · have hsorted : DateSorted (sortBy compareDates acc) := sortBy_sorted acc
    have hnodup : ((sortBy compareDates acc).map fun e => e.date).Nodup :=
      ((sortBy_perm compareDates acc).map _).nodup_iff.2 (hmap ▸ hdistinct)
    have hne : (sortBy compareDates acc).Pairwise fun a b => a.date ≠ b.date :=
      (List.pairwise_map.1 hnodup)
    exact hsorted.and hne

/-- Scenario C as an instance of claim C8: the two Diwali variants, listed latest
first, come out as 2024-11-01 followed by 2025-10-20. -/
theorem movable_year_month_day_witness :
    ("Diwali" ≠ "") ∧ lookup "name" diwaliProps = .str "Diwali" ∧
      (∃ out, flattenIndiaCommon rejectAll (.obj [("movable_festivals", .arr [.obj diwaliProps])])
          = some out ∧
        (out.map fun e => e.date).Perm
          ([((2025 : Int), "10-20"), ((2024 : Int), "11-01")].map joinedDate) ∧
        (∀ e ∈ out, e.name = .str "Diwali") ∧
        out.Pairwise fun a b => strLe a.date b.date = true ∧ a.date ≠ b.date) :=
  ⟨by decide, rfl,
    movable_year_month_day rejectAll "Diwali" diwaliProps
      [.obj [("year", .num 2025), ("date", .str "10-20")],
       .obj [("year", .num 2024), ("date", .str "11-01")]]
      [(2025, "10-20"), (2024, "11-01")] (by decide) rfl rfl
      (List.Forall₂.cons ⟨rfl, rfl⟩ (List.Forall₂.cons ⟨rfl, rfl⟩ List.Forall₂.nil))
      (by
        intro v hv
        simp only [List.mem_cons, List.mem_singleton, List.not_mem_nil, or_false] at hv
        rcases hv with rfl | rfl <;> exact ⟨by decide, by decide, rfl⟩)
      (by decide)⟩

/-! ## Conversions of primitives cannot throw -/

theorem toStr_primitive (v : JVal) (h : isPrimitive v = true) : ∃ s, toStr v = some s := by
  cases v with
  | arr xs => exact Bool.noConfusion h
  | obj kvs => exact Bool.noConfusion h
  | _ => exact ⟨_, rfl⟩

theorem toNumber_primitive (v : JVal) (h : isPrimitive v = true) :
    ∃ n, toNumber v = some n := by
  cases v with
  | arr xs => exact Bool.noConfusion h
  | obj kvs => exact Bool.noConfusion h
  | _ => exact ⟨_, rfl⟩

theorem isPrimitive_orElse (a b : JVal) (ha : isPrimitive a = true)
    (hb : isPrimitive b = true) : isPrimitive (orElse a b) = true := by
  unfold orElse
  split <;> assumption

/-! ## Totality when the converted fields are primitives -/

theorem shiftMonth_primitive (m : JVal) (h : isPrimitive m = true) : ∃ mn, shiftMonth m = some mn := by
  obtain ⟨n, hn⟩ := toNumber_primitive m h
  exact ⟨_, by rw [shiftMonth, hn]; rfl⟩

theorem formatFields_primitive (y : JVal) (mn dn : JNum) (hy : isPrimitive y = true) :
    ∃ r, formatFields y mn dn = some r := by
  obtain ⟨yn, hyn⟩ := toNumber_primitive y hy
  unfold formatFields
  split
  · exact ⟨_, by rw [dateOfFields, hyn]; rfl⟩
  · exact ⟨_, rfl⟩

theorem ensureISOObject_primitive (thing dy : JVal) (hyear : isPrimitive (get thing "year") = true)
    (hmonth : isPrimitive (get thing "month") = true) (hday : isPrimitive (get thing "day") = true)
    (hdate : isPrimitive (get thing "date") = true) (hdy : isPrimitive dy = true) :
    ∃ r, ensureISOObject thing dy = some r := by
  unfold ensureISOObject
  have hy : isPrimitive (orElse (get thing "year") dy) = true := isPrimitive_orElse _ _ hyear hdy
  have hd : isPrimitive (orElse (orElse (get thing "day") (get thing "date")) (.num 1)) = true :=
    isPrimitive_orElse _ _ (isPrimitive_orElse _ _ hday hdate) rfl
  obtain ⟨mn, hmn⟩ := shiftMonth_primitive (get thing "month") hmonth
  obtain ⟨dn, hdn⟩ := toNumber_primitive _ hd
  obtain ⟨r, hr⟩ := formatFields_primitive (orElse (get thing "year") dy) mn dn hy
  simp only [hmn, hdn, Option.some_bind, hr]
  split <;> exact ⟨_, rfl⟩

theorem ensureISOString_primitive (P : DateParser) (s : String) (dy : JVal)
    (hdy : isPrimitive dy = true) : ∃ r, ensureISOString P s dy = some r := by
  obtain ⟨y, hy⟩ := toStr_primitive dy hdy
  unfold ensureISOString
  split
  · exact ⟨_, rfl⟩
  · split
    · simp [hy]
    · cases P s <;> exact ⟨_, rfl⟩

theorem ensureISODate_str_primitive (P : DateParser) (s : String) (dy : JVal)
    (hdy : isPrimitive dy = true) : ∃ r, ensureISODate P (.str s) dy = some r := by
  unfold ensureISODate
  split
  · exact ⟨_, rfl⟩
  · exact ensureISOString_primitive P s dy hdy

theorem ensureISODate_fields_primitive (P : DateParser) (y m d : JVal) (hy : isPrimitive y = true)
    (hm : isPrimitive m = true) (hd : isPrimitive d = true) :
    ∃ r, ensureISODate P (.obj [("year", y), ("month", m), ("day", d)]) .null = some r := by
  have h : ensureISODate P (.obj [("year", y), ("month", m), ("day", d)]) .null =
      ensureISOObject (.obj [("year", y), ("month", m), ("day", d)]) .null := rfl
  rw [h]
  exact ensureISOObject_primitive _ _ hy hm hd rfl rfl

/-- The name recorded by `pushEvent` is isPrimitive when the two names it reads are. -/
theorem pushEvent_primitive (name : JVal) (iso : Option String) (m : JVal)
    (hn : isPrimitive name = true) (hm : isPrimitive (get m "name") = true) :
    ∀ e ∈ pushEvent name iso m, isPrimitive e.name = true := by
  intro e he
  unfold pushEvent at he
  cases iso with
  | none => simp at he
  | some d =>
    simp only at he
    split at he
    · simp at he
    · simp only [List.mem_singleton] at he
      rw [he]
      exact isPrimitive_orElse _ _ (isPrimitive_orElse _ _ hn hm) rfl

theorem forEachEvents_primitive (body : JVal → Option (List Event)) (xs : List JVal)
    (h : ∀ x ∈ xs, ∃ es, body x = some es ∧ ∀ e ∈ es, isPrimitive e.name = true) :
    ∃ r, forEachEvents body xs = some r ∧ ∀ e ∈ r, isPrimitive e.name = true := by
  induction xs with
  | nil => exact ⟨[], rfl, by simp⟩
  | cons x xs ih =>
    obtain ⟨es, hes, hpl⟩ := h x (List.mem_cons_self _ _)
    obtain ⟨r, hr, hrp⟩ := ih fun y hy => h y (List.mem_cons_of_mem _ hy)
    refine ⟨es ++ r, by simp [forEachEvents, hes, hr], ?_⟩
    intro e he
    rcases List.mem_append.1 he with he | he
    · exact hpl e he
    · exact hrp e he

theorem fixedIso_primitive (P : DateParser) (item : JVal) (h : ConvPrimitive item) :
    ∃ r, fixedIso P item = some r := by
  unfold fixedIso
  split
  · exact ensureISODate_str_primitive P _ _ rfl
  · split
    · exact ensureISODate_fields_primitive P _ _ _ h.2.1 h.2.2.1 h.2.2.2
    · exact ⟨_, rfl⟩

theorem fixedIso_not_object (P : DateParser) (item : JVal)
    (h : ∀ kvs, item ≠ .obj kvs) : fixedIso P item = some none := by
  cases item with
  | obj kvs => exact absurd rfl (h kvs)
  | _ => simp [fixedIso, get, truthy]

theorem fixedItem_primitive (P : DateParser) (group : String) (item : JVal)
    (h : ConvPrimitive item) :
    ∃ es, fixedItem P group item = some es ∧ ∀ e ∈ es, isPrimitive e.name = true := by
  unfold fixedItem
  split
  · exact ⟨[], rfl, by simp⟩
  · obtain ⟨iso, hiso⟩ := fixedIso_primitive P item h
    refine ⟨_, by rw [hiso]; rfl, ?_⟩
    cases item with
    | obj kvs =>
      have hname : get (.obj (spread (ownProps (.obj kvs)) [("group", .str group)])) "name"
          = get (.obj kvs) "name" := by
        simp [get, spread, ownProps, lookup]
      exact pushEvent_primitive _ iso _ h.1 (by rw [hname]; exact h.1)
    | undefined => rw [fixedIso_not_object P _ (by simp)] at hiso; cases hiso; simp [pushEvent]
    | null => rw [fixedIso_not_object P _ (by simp)] at hiso; cases hiso; simp [pushEvent]
    | bool b => rw [fixedIso_not_object P _ (by simp)] at hiso; cases hiso; simp [pushEvent]
    | num n => rw [fixedIso_not_object P _ (by simp)] at hiso; cases hiso; simp [pushEvent]
    | str t => rw [fixedIso_not_object P _ (by simp)] at hiso; cases hiso; simp [pushEvent]
    | arr xs => rw [fixedIso_not_object P _ (by simp)] at hiso; cases hiso; simp [pushEvent]

theorem fixedGroup_primitive (P : DateParser) (fixed : JVal) (group : String)
    (h : ∀ items, get fixed group = .arr items → ∀ x ∈ items, ConvPrimitive x) :
    ∃ es, fixedGroup P fixed group = some es ∧ ∀ e ∈ es, isPrimitive e.name = true := by
  unfold fixedGroup
  split
  · rename_i items hitems
    exact forEachEvents_primitive _ items fun x hx => fixedItem_primitive P group x (h items hitems x hx)
  · exact ⟨[], rfl, by simp⟩

theorem fixedSection_primitive (P : DateParser) (data : JVal)
    (h : ∀ g items, get (get data "fixed_holidays") g = .arr items → ∀ x ∈ items, ConvPrimitive x) :
    ∃ es, fixedSection P data = some es ∧ ∀ e ∈ es, isPrimitive e.name = true := by
  unfold fixedSection
  split
  · obtain ⟨hs, hhs, hph⟩ := fixedGroup_primitive P (get data "fixed_holidays") "holidays" (h _)
    obtain ⟨ns, hns, hpn⟩ :=
      fixedGroup_primitive P (get data "fixed_holidays") "non_holidays" (h _)
    refine ⟨hs ++ ns, by simp [hhs, hns], ?_⟩
    intro e he
    rcases List.mem_append.1 he with he | he
    · exact hph e he
    · exact hpn e he
  · exact ⟨[], rfl, by simp⟩

theorem variantIso_primitive (P : DateParser) (d : JVal) (h : ConvPrimitive d) :
    ∃ r, variantIso P d = some r := by
  have hyear := h.2.1
  obtain ⟨y, hy⟩ := toStr_primitive _ hyear
  unfold variantIso
  split
  · split
    · exact ⟨_, rfl⟩
    · split
      · exact ⟨_, by rw [hy]; rfl⟩
      · split
        · exact ensureISODate_fields_primitive P _ _ _ h.2.1 h.2.2.1 h.2.2.2
        · exact ensureISODate_str_primitive P _ _ (isPrimitive_orElse _ _ hyear rfl)
  · split
    · exact ensureISODate_fields_primitive P _ _ _ h.2.1 h.2.2.1 h.2.2.2
    · exact ⟨_, rfl⟩

theorem variantIso_not_object (P : DateParser) (d : JVal)
    (h : ∀ kvs, d ≠ .obj kvs) : variantIso P d = some none := by
  cases d with
  | obj kvs => exact absurd rfl (h kvs)
  | _ => simp [variantIso, get, truthy]

theorem variantItem_primitive (P : DateParser) (fk : Props) (d : JVal)
    (hf : isPrimitive (get (.obj fk) "name") = true) (hd : ConvPrimitive d) :
    ∃ es, variantItem P (.obj fk) d = some es ∧ ∀ e ∈ es, isPrimitive e.name = true := by
  unfold variantItem
  split
  · exact ⟨[], rfl, by simp⟩
  · obtain ⟨iso, hiso⟩ := variantIso_primitive P d hd
    refine ⟨_, by rw [hiso]; rfl, ?_⟩
    cases d with
    | obj dk =>
      have hname : isPrimitive (get (.obj (spread (ownProps (.obj fk)) (ownProps (.obj dk)))) "name")
          = true := by
        simp only [get, spread, ownProps, lookup_append]
        split
        · exact hd.1
        · exact hf
      exact pushEvent_primitive _ iso _ hf hname
    | undefined => rw [variantIso_not_object P _ (by simp)] at hiso; cases hiso; simp [pushEvent]
    | null => rw [variantIso_not_object P _ (by simp)] at hiso; cases hiso; simp [pushEvent]
    | bool b => rw [variantIso_not_object P _ (by simp)] at hiso; cases hiso; simp [pushEvent]
    | num n => rw [variantIso_not_object P _ (by simp)] at hiso; cases hiso; simp [pushEvent]
    | str t => rw [variantIso_not_object P _ (by simp)] at hiso; cases hiso; simp [pushEvent]
    | arr xs => rw [variantIso_not_object P _ (by simp)] at hiso; cases hiso; simp [pushEvent]

theorem festivalItem_primitive (P : DateParser) (f : JVal) (hf : isPrimitive (get f "name") = true)
    (hds : ∀ ds, get f "dates" = .arr ds → ∀ d ∈ ds, ConvPrimitive d) :
    ∃ es, festivalItem P f = some es ∧ ∀ e ∈ es, isPrimitive e.name = true := by
  unfold festivalItem
  split
  · exact ⟨[], rfl, by simp⟩
  · split
    · rename_i ds hdates
      obtain ⟨fk, rfl⟩ := get_ne_undefined_obj hdates (by simp)
      exact forEachEvents_primitive _ ds fun x hx =>
        variantItem_primitive P fk x hf (hds ds hdates x hx)
    · split
      · obtain ⟨iso, hiso⟩ := ensureISODate_str_primitive P _ .null rfl
        refine ⟨_, by rw [hiso]; rfl, ?_⟩
        exact pushEvent_primitive _ iso _ hf hf
      · exact ⟨[], rfl, by simp⟩

theorem movableSection_primitive (P : DateParser) (data : JVal)
    (h : ∀ fs, get data "movable_festivals" = .arr fs → ∀ f ∈ fs,
      isPrimitive (get f "name") = true ∧ ∀ ds, get f "dates" = .arr ds → ∀ d ∈ ds, ConvPrimitive d) :
    ∃ es, movableSection P data = some es ∧ ∀ e ∈ es, isPrimitive e.name = true := by
  unfold movableSection
  split
  · rename_i fs hfs
    exact forEachEvents_primitive _ fs fun x hx =>
      festivalItem_primitive P x (h fs hfs x hx).1 (h fs hfs x hx).2
  · exact ⟨[], rfl, by simp⟩

theorem dedupe_primitive (seen : List String) (l : List Event)
    (h : ∀ e ∈ l, isPrimitive e.name = true) : ∃ r, dedupe seen l = some r := by
  induction l generalizing seen with
  | nil => exact ⟨[], rfl⟩
  | cons e es ih =>
    obtain ⟨n, hn⟩ := toStr_primitive e.name (h e (List.mem_cons_self _ _))
    have hkey : eventKey e = some (n ++ "::" ++ e.date) := by simp [eventKey, hn]
    have hrest := fun seen => ih seen fun x hx => h x (List.mem_cons_of_mem _ hx)
    unfold dedupe
    simp only [hkey]
    split
    · obtain ⟨r, hr⟩ := hrest ((n ++ "::" ++ e.date) :: seen)
      exact ⟨e :: r, by rw [hr]; rfl⟩
    · exact hrest seen

/-- The function returns when the converted fields of every entry are primitives. -/
theorem flatten_conv_primitive (P : DateParser) (data : JVal)
    (hfixed : ∀ g items, get (get data "fixed_holidays") g = .arr items →
      ∀ x ∈ items, ConvPrimitive x)
    (hmov : ∀ fs, get data "movable_festivals" = .arr fs → ∀ f ∈ fs,
      isPrimitive (get f "name") = true ∧ ∀ ds, get f "dates" = .arr ds → ∀ d ∈ ds, ConvPrimitive d) :
    ∃ out, flattenIndiaCommon P data = some out := by
  obtain ⟨fx, hfx, hpf⟩ := fixedSection_primitive P data hfixed
  obtain ⟨mv, hmv, hpm⟩ := movableSection_primitive P data hmov
  have hacc : accumulate P data = some (fx ++ mv) := by simp [accumulate, hfx, hmv]
  obtain ⟨r, hr⟩ := dedupe_primitive [] (fx ++ mv) (by
    intro e he
    rcases List.mem_append.1 he with he | he
    · exact hpf e he
    · exact hpm e he)
  unfold flattenIndiaCommon
  split
  · exact ⟨_, rfl⟩
  · cases data <;> simp [hacc, hr]

/-! ## Documents whose converted fields are primitives -/

theorem primitiveFields_lookup (k : String) (kvs : Props)
    (h : primitiveFieldsProps kvs = true) :
    primitiveFields (lookup k kvs) = true ∧
      (isConvertedKey k = true → isPrimitive (lookup k kvs) = true) := by
  induction kvs with
  | nil => exact ⟨rfl, fun _ => rfl⟩
  | cons p ps ih =>
    obtain ⟨k', v⟩ := p
    simp only [primitiveFieldsProps, Bool.and_eq_true, Bool.or_eq_true,
      Bool.not_eq_true'] at h
    unfold lookup
    split
    · rename_i hk
      refine ⟨h.1.2, fun hc => ?_⟩
      rcases h.1.1 with hnot | hprim
      · rw [hk, hc] at hnot
        exact Bool.noConfusion hnot
      · exact hprim
    · exact ih h.2

theorem primitiveFields_get (v : JVal) (k : String) (h : primitiveFields v = true) :
    primitiveFields (get v k) = true ∧
      (isConvertedKey k = true → isPrimitive (get v k) = true) := by
  cases v with
  | obj kvs => exact primitiveFields_lookup k kvs (by simpa [primitiveFields] using h)
  | _ => exact ⟨rfl, fun _ => rfl⟩

theorem primitiveFields_mem (xs : List JVal) (h : primitiveFieldsList xs = true) :
    ∀ x ∈ xs, primitiveFields x = true := by
  induction xs with
  | nil => simp
  | cons y ys ih =>
    simp only [primitiveFieldsList, Bool.and_eq_true] at h
    intro x hx
    rcases List.mem_cons.1 hx with hxy | hx
    · rw [hxy]
      exact h.1
    · exact ih h.2 x hx

theorem convPrimitive_of_primitiveFields (v : JVal) (h : primitiveFields v = true) :
    ConvPrimitive v :=
  ⟨((primitiveFields_get v "name" h).2 rfl),
    ((primitiveFields_get v "year" h).2 rfl),
    ((primitiveFields_get v "month" h).2 rfl),
    ((primitiveFields_get v "day" h).2 rfl)⟩

theorem primitiveFields_elems {v : JVal} {xs : List JVal} (h : primitiveFields v = true)
    (hv : v = .arr xs) : ∀ x ∈ xs, primitiveFields x = true := by
  subst hv
  exact primitiveFields_mem xs (by simpa [primitiveFields] using h)

/-- On a document whose `name`, `year`, `month` and `day` values are all
primitives the function returns. -/
theorem flatten_primitiveFields (P : DateParser) (data : JVal)
    (h : primitiveFields data = true) : ∃ out, flattenIndiaCommon P data = some out := by
  apply flatten_conv_primitive
  · intro g items hitems x hx
    have hgroup := (primitiveFields_get _ g (primitiveFields_get data "fixed_holidays" h).1).1
    exact convPrimitive_of_primitiveFields x (primitiveFields_elems hgroup hitems x hx)
  · intro fs hfs f hf
    have hf' := primitiveFields_elems (primitiveFields_get data "movable_festivals" h).1 hfs f hf
    refine ⟨(convPrimitive_of_primitiveFields f hf').1, ?_⟩
    intro ds hds d hd
    exact convPrimitive_of_primitiveFields d
      (primitiveFields_elems (primitiveFields_get f "dates" hf').1 hds d hd)

/-- Without a truthy `fixed_holidays` and an array `movable_festivals` nothing
is accumulated. -/
theorem flatten_no_sections (P : DateParser) (data : JVal)
    (hfixed : truthy (get data "fixed_holidays") = false)
    (hmov : ∀ fs, get data "movable_festivals" ≠ .arr fs) :
    flattenIndiaCommon P data = some [] := by
  have hfx : fixedSection P data = some [] := by simp [fixedSection, hfixed]
  have hmv : movableSection P data = some [] := by
    unfold movableSection
    split
    · rename_i fs hfs
      exact absurd hfs (hmov fs)
    · rfl
  have hacc : accumulate P data = some [] := by simp [accumulate, hfx, hmv]
  unfold flattenIndiaCommon
  split
  · rfl
  · cases data <;> simp [hacc, dedupe, sortBy]

/-! ## Claim C7 -/

/-- Claim C7 as stated fails: a fixed holiday whose name is an object with an own
`toString` property makes the template literal of the deduplication key throw. -/
theorem flatten_throws_on_name_object :
    flattenIndiaCommon rejectAll docNameObject = none :=
  rfl

/-- Claim C7, amended. `flattenIndiaCommon` returns the empty list for every
input that is `null`, absent or a primitive, and for every input whose
`fixed_holidays` is absent (or falsy) and whose `movable_festivals` is not an
array; it returns a list, without throwing, for every document in which every
value of a property named `name`, `year`, `month` or `day` is a primitive. -/
theorem flatten_total_on_primitive_fields (P : DateParser) (data : JVal) :
    (isRecord data = false → flattenIndiaCommon P data = some []) ∧
      (truthy (get data "fixed_holidays") = false →
        (∀ fs, get data "movable_festivals" ≠ .arr fs) →
        flattenIndiaCommon P data = some []) ∧
      (primitiveFields data = true → ∃ out, flattenIndiaCommon P data = some out) := by
  refine ⟨?_, flatten_no_sections P data, flatten_primitiveFields P data⟩
  intro hrec
  apply flatten_no_sections
  · cases data <;> first | rfl | exact Bool.noConfusion hrec
  · intro fs
    cases data <;> first | (simp [get]; done) | exact Bool.noConfusion hrec

/-- Instances of the amended claim C7: `null`, a record without usable sections,
and `docPrimitive`, whose names and date fields are primitives. -/
theorem flatten_total_on_primitive_fields_witness :
    flattenIndiaCommon rejectAll .null = some [] ∧
      flattenIndiaCommon rejectAll docNoSections = some [] ∧
      ∃ out, flattenIndiaCommon rejectAll docPrimitive = some out :=
  ⟨(flatten_total_on_primitive_fields rejectAll .null).1 rfl,
    (flatten_total_on_primitive_fields rejectAll docNoSections).2.1 rfl
      (by intro fs h; exact JVal.noConfusion h),
    (flatten_total_on_primitive_fields rejectAll docPrimitive).2.2 rfl⟩

/-! ## Dates of the fixed section carry no colon -/

theorem ite_ne_colon {c : Prop} [Decidable c] {a b : Char} (ha : a ≠ ':') (hb : b ≠ ':') :
    (if c then a else b) ≠ ':' := by
  split <;> assumption

theorem digitChar_ne_colon (k : Nat) : Nat.digitChar k ≠ ':' := by
  unfold Nat.digitChar
  repeat' first
    | exact ite_ne_colon (by decide) (by decide)
    | apply ite_ne_colon (by decide)

theorem toDigitsCore_no_colon (fuel n : Nat) (ds : List Char) (h : ':' ∉ ds) :
    ':' ∉ Nat.toDigitsCore 10 fuel n ds := by
  induction fuel generalizing n ds with
  | zero => simpa [Nat.toDigitsCore] using h
  | succ fuel ih =>
    have hcons : ':' ∉ Nat.digitChar (n % 10) :: ds := by
      intro hm
      rcases List.mem_cons.1 hm with hm | hm
      · exact digitChar_ne_colon _ hm.symm
      · exact h hm
    simp only [Nat.toDigitsCore]
    split
    · exact hcons
    · exact ih _ _ hcons

theorem natToString_no_colon (n : Nat) : ':' ∉ (toString n).data := by
  show ':' ∉ (Nat.repr n).data
  unfold Nat.repr Nat.toDigits
  exact toDigitsCore_no_colon _ _ _ (by simp)

theorem intToString_no_colon (n : Int) : ':' ∉ (toString n).data := by
  cases n with
  | ofNat m => exact natToString_no_colon m
  | negSucc m =>
    show ':' ∉ ("-" ++ toString (Nat.succ m)).data
    rw [String.data_append]
    intro hm
    rcases List.mem_append.1 hm with hm | hm
    · revert hm
      decide
    · exact natToString_no_colon _ hm

theorem pad2_no_colon (n : Int) : ':' ∉ (pad2 n).data := by
  unfold pad2
  simp only [String.data_append]
  intro hm
  rcases List.mem_append.1 hm with hm | hm
  · have := List.eq_of_mem_replicate hm
    revert this
    decide
  · exact intToString_no_colon _ hm

theorem formatDate_keySafe (dt : Option (Int × Int × Int)) : KeySafe (formatDate dt) := by
  cases dt with
  | none => exact ⟨by decide, by decide⟩
  | some ymd =>
    obtain ⟨y, m, d⟩ := ymd
    unfold formatDate
    constructor
    · simp [String.data_append]
    · simp only [String.data_append, List.mem_append, not_or]
      exact ⟨⟨⟨⟨intToString_no_colon y, by decide⟩, pad2_no_colon _⟩, by decide⟩,
        pad2_no_colon _⟩

theorem isDigit_ne_colon {c : Char} (h : c.isDigit = true) : c ≠ ':' := by
  intro hc
  subst hc
  revert h
  decide

theorem isISO_keySafe {s : String} (h : isISO s = true) : KeySafe s := by
  unfold isISO at h
  split at h
  · rename_i a b c d e f g i heq
    simp only [Bool.and_eq_true] at h
    obtain ⟨⟨⟨⟨⟨⟨⟨ha, hb⟩, hc⟩, hd⟩, he⟩, hf⟩, hg⟩, hi⟩ := h
    unfold KeySafe
    rw [heq]
    refine ⟨by simp, ?_⟩
    simp only [List.mem_cons, List.mem_singleton, List.not_mem_nil, not_or, or_false]
    exact ⟨(isDigit_ne_colon ha).symm, (isDigit_ne_colon hb).symm, (isDigit_ne_colon hc).symm,
      (isDigit_ne_colon hd).symm, by decide, (isDigit_ne_colon he).symm,
      (isDigit_ne_colon hf).symm, by decide, (isDigit_ne_colon hg).symm,
      (isDigit_ne_colon hi).symm⟩
  · exact Bool.noConfusion h

theorem ensureISOString_null_keySafe (P : DateParser) (s d : String)
    (h : ensureISOString P s .null = some (some d)) : KeySafe d := by
  unfold ensureISOString at h
  split at h
  · rename_i hiso
    simp only [Option.some.injEq] at h
    exact h ▸ isISO_keySafe hiso
  · simp only [truthy, Bool.and_false, Bool.false_eq_true, if_false] at h
    split at h
    · simp only [Option.some.injEq] at h
      exact h ▸ formatDate_keySafe _
    · simp at h

theorem ensureISOObject_keySafe (thing dy : JVal) (d : String)
    (h : ensureISOObject thing dy = some (some d)) : KeySafe d := by
  unfold ensureISOObject at h
  simp only [] at h
  split at h
  · simp at h
  · simp at h
  · simp only [Option.bind_eq_some] at h
    obtain ⟨mn, _, dn, _, hfmt⟩ := h
    unfold formatFields at hfmt
    split at hfmt
    · simp only [Option.map_eq_some'] at hfmt
      obtain ⟨dt, _, hdt⟩ := hfmt
      simp only [Option.some.injEq] at hdt
      exact hdt ▸ formatDate_keySafe dt
    · simp at hfmt

theorem ensureISODate_null_keySafe (P : DateParser) (thing : JVal) (d : String)
    (h : ensureISODate P thing .null = some (some d)) : KeySafe d := by
  unfold ensureISODate at h
  split at h
  · simp at h
  · cases thing with
    | str s => exact ensureISOString_null_keySafe P s d h
    | arr xs => exact ensureISOObject_keySafe _ _ d h
    | obj kvs => exact ensureISOObject_keySafe _ _ d h
    | _ => simp at h

theorem fixedIso_keySafe (P : DateParser) (item : JVal) (d : String)
    (h : fixedIso P item = some (some d)) : KeySafe d := by
  unfold fixedIso at h
  split at h
  · exact ensureISODate_null_keySafe P _ d h
  · split at h
    · exact ensureISODate_null_keySafe P _ d h
    · simp at h

/-! ## Keys of colon-free dates determine name and date -/

theorem split_at_colon (u v r1 r2 : List Char) (hu : ':' ∉ u) (hv : ':' ∉ v)
    (h : u ++ ':' :: r1 = v ++ ':' :: r2) : u = v ∧ r1 = r2 := by
  induction u generalizing v with
  | nil =>
    cases v with
    | nil => exact ⟨rfl, by simpa using h⟩
    | cons c v =>
      simp only [List.nil_append, List.cons_append, List.cons.injEq] at h
      exact absurd (List.mem_cons_of_mem _ (List.mem_cons_self _ _) : c ∈ c :: c :: v)
        (by
          intro _
          exact hv (h.1 ▸ List.mem_cons_self _ _))
  | cons a u ih =>
    cases v with
    | nil =>
      simp only [List.nil_append, List.cons_append, List.cons.injEq] at h
      exact absurd (List.mem_cons_self a u) (h.1 ▸ hu)
    | cons c v =>
      simp only [List.cons_append, List.cons.injEq] at h
      obtain ⟨huv, hr⟩ := ih v (fun hm => hu (List.mem_cons_of_mem _ hm))
        (fun hm => hv (List.mem_cons_of_mem _ hm)) h.2
      exact ⟨by rw [h.1, huv], hr⟩

theorem key_split {n1 n2 d1 d2 : String} (h1 : ':' ∉ d1.data) (h2 : ':' ∉ d2.data)
    (h : n1 ++ "::" ++ d1 = n2 ++ "::" ++ d2) : n1 = n2 ∧ d1 = d2 := by
  have hdata := congrArg (fun t : String => t.data.reverse) h
  simp only [String.data_append, List.reverse_append, List.append_assoc] at hdata
  have hsep : ("::" : String).data.reverse = [':', ':'] := rfl
  rw [hsep] at hdata
  simp only [List.cons_append, List.nil_append] at hdata
  obtain ⟨hd, hn⟩ := split_at_colon d1.data.reverse d2.data.reverse _ _
    (by simpa using h1) (by simpa using h2) hdata
  simp only [List.cons.injEq, true_and, List.reverse_inj] at hn
  simp only [List.reverse_inj] at hd
  cases n1
  cases n2
  cases d1
  cases d2
  simp_all

/-! ## More on the deduplication loop -/

theorem dedupe_cons_keep {seen : List String} {e : Event} {key : String} (es : List Event)
    (hk : eventKey e = some key) (hc : key ∉ seen) (hd : e.date.data ≠ []) :
    dedupe seen (e :: es) = (dedupe (key :: seen) es).map (e :: ·) := by
  rw [dedupe]
  simp [hk, hc, hd]

theorem dedupe_cons_drop {seen : List String} {e : Event} {key : String} (es : List Event)
    (hk : eventKey e = some key) (hc : key ∈ seen ∨ e.date.data = []) :
    dedupe seen (e :: es) = dedupe seen es := by
  rw [dedupe]
  rcases hc with hc | hc <;> simp [hk, hc]

theorem dedupe_covers {seen : List String} {l r : List Event}
    (h : dedupe seen l = some r) :
    ∀ x ∈ l, x.date.data ≠ [] →
      ∃ k, eventKey x = some k ∧ (k ∈ seen ∨ ∃ e ∈ r, eventKey e = some k) := by
  induction l generalizing seen r with
  | nil => simp
  | cons e es ih =>
    obtain ⟨key, hk, hcase⟩ := dedupe_cons_some h
    intro x hx hxd
    rcases hcase with ⟨_, _, r1, h1, hr⟩ | ⟨hdrop, h1⟩
    · rcases List.mem_cons.1 hx with hxe | hx
      · rw [hxe]
        exact ⟨key, hk, Or.inr ⟨e, by rw [hr]; exact List.mem_cons_self _ _, hk⟩⟩
      · obtain ⟨k, hxk, hcov⟩ := ih h1 x hx hxd
        refine ⟨k, hxk, ?_⟩
        rcases hcov with hmem | ⟨e', he', hek⟩
        · rcases List.mem_cons.1 hmem with hkk | hmem
          · exact Or.inr ⟨e, by rw [hr]; exact List.mem_cons_self _ _, hkk ▸ hk⟩
          · exact Or.inl hmem
        · exact Or.inr ⟨e', by rw [hr]; exact List.mem_cons_of_mem _ he', hek⟩
    · rcases List.mem_cons.1 hx with hxe | hx
      · rw [hxe]
        refine ⟨key, hk, Or.inl ?_⟩
        rcases hdrop with hc | hempty
        · simpa using hc
        · exact absurd hempty (hxe ▸ hxd)
      · exact ih h1 x hx hxd

theorem dedupe_append {seen : List String} {l1 l2 r : List Event}
    (h : dedupe seen (l1 ++ l2) = some r) :
    ∃ r1 r2, dedupe seen l1 = some r1 ∧ r = r1 ++ r2 := by
  induction l1 generalizing seen r with
  | nil => exact ⟨[], r, rfl, rfl⟩
  | cons e es ih =>
    rw [List.cons_append] at h
    obtain ⟨key, hk, hcase⟩ := dedupe_cons_some h
    rcases hcase with ⟨hc, hd, r', h1, hr⟩ | ⟨hdrop, h1⟩
    · obtain ⟨r1, r2, hr1, hsplit⟩ := ih h1
      refine ⟨e :: r1, r2, ?_, by rw [hr, hsplit]; rfl⟩
      rw [dedupe_cons_keep es hk (by simpa using hc) hd, hr1]
      rfl
    · obtain ⟨r1, r2, hr1, hsplit⟩ := ih h1
      refine ⟨r1, r2, ?_, hsplit⟩
      rw [dedupe_cons_drop es hk (by simpa using hdrop), hr1]

/-! ## Events of the fixed section -/

theorem forEachEvents_mem {body : JVal → Option (List Event)} {xs : List JVal}
    {r : List Event} (h : forEachEvents body xs = some r) {x : JVal} (hx : x ∈ xs)
    {es : List Event} (hes : body x = some es) : ∀ e ∈ es, e ∈ r := by
  induction xs generalizing r with
  | nil => simp at hx
  | cons y ys ih =>
    unfold forEachEvents at h
    cases hy : body y with
    | none => simp [hy] at h
    | some ey =>
      simp only [hy] at h
      cases hrest : forEachEvents body ys with
      | none => simp [hrest] at h
      | some rest =>
        simp only [hrest, Option.some.injEq] at h
        intro e he
        rw [← h]
        rcases List.mem_cons.1 hx with hxy | hx
        · rw [hxy, hy] at hes
          simp only [Option.some.injEq] at hes
          exact List.mem_append_left _ (hes ▸ he)
        · exact List.mem_append_right _ (ih hrest hx e he)

theorem forEachEvents_all {body : JVal → Option (List Event)} {xs : List JVal}
    {r : List Event} (Q : Event → Prop) (h : forEachEvents body xs = some r)
    (hbody : ∀ x ∈ xs, ∀ es, body x = some es → ∀ e ∈ es, Q e) : ∀ e ∈ r, Q e := by
  induction xs generalizing r with
  | nil =>
    simp [forEachEvents] at h
    subst h
    simp
  | cons y ys ih =>
    unfold forEachEvents at h
    cases hy : body y with
    | none => simp [hy] at h
    | some ey =>
      simp only [hy] at h
      cases hrest : forEachEvents body ys with
      | none => simp [hrest] at h
      | some rest =>
        simp only [hrest, Option.some.injEq] at h
        intro e he
        rw [← h] at he
        rcases List.mem_append.1 he with he | he
        · exact hbody y (List.mem_cons_self _ _) ey hy e he
        · exact ih hrest (fun x hx => hbody x (List.mem_cons_of_mem _ hx)) e he

theorem pushEvent_date {name : JVal} {iso : Option String} {m : JVal} {e : Event}
    (he : e ∈ pushEvent name iso m) : iso = some e.date := by
  unfold pushEvent at he
  cases iso with
  | none => simp at he
  | some d =>
    simp only at he
    split at he
    · simp at he
    · simp only [List.mem_singleton] at he
      rw [he]

theorem fixedItem_keySafe (P : DateParser) (group : String) (item : JVal) (es : List Event)
    (h : fixedItem P group item = some es) : ∀ e ∈ es, KeySafe e.date := by
  unfold fixedItem at h
  split at h
  · simp only [Option.some.injEq] at h
    subst h
    simp
  · simp only [Option.map_eq_some'] at h
    obtain ⟨iso, hiso, hes⟩ := h
    intro e he
    rw [← hes] at he
    have hd := pushEvent_date he
    rw [hd] at hiso
    exact fixedIso_keySafe P item e.date hiso

theorem fixedGroup_keySafe (P : DateParser) (fixed : JVal) (group : String) (es : List Event)
    (h : fixedGroup P fixed group = some es) : ∀ e ∈ es, KeySafe e.date := by
  unfold fixedGroup at h
  split at h
  · exact forEachEvents_all (fun e => KeySafe e.date) h
      fun x _ es hes => fixedItem_keySafe P group x es hes
  · simp only [Option.some.injEq] at h
    subst h
    simp

theorem orElse_twice (a b : JVal) : orElse (orElse a a) b = orElse a b := by
  unfold orElse
  cases h : truthy a <;> simp [h]

/-- The event a fixed-holiday entry with a resolved date pushes. -/
theorem fixedItem_event (P : DateParser) (group : String) (item : JVal) (d : String)
    (hiso : fixedIso P item = some (some d)) :
    ∃ ev, fixedItem P group item = some [ev] ∧ ev.date = d ∧
      ev.name = orElse (get item "name") (.str "Event") := by
  have hks := fixedIso_keySafe P item d hiso
  cases item with
  | obj kvs =>
    have hname : get (.obj (spread (ownProps (.obj kvs)) [("group", .str group)])) "name"
        = get (.obj kvs) "name" := by
      simp [get, spread, ownProps, lookup]
    have hitem : fixedItem P group (.obj kvs) =
        some (pushEvent (get (.obj kvs) "name") (some d)
          (.obj (spread (ownProps (.obj kvs)) [("group", .str group)]))) := by
      simp [fixedItem, truthy, hiso]
    rw [hitem]
    unfold pushEvent
    simp only [hks.1, if_false]
    exact ⟨_, rfl, rfl, by simp only [hname, orElse_twice]⟩
  | undefined => simp [fixedIso, get, truthy] at hiso
  | null => simp [fixedIso, get, truthy] at hiso
  | bool b => simp [fixedIso, get, truthy] at hiso
  | num n => simp [fixedIso, get, truthy] at hiso
  | str s => simp [fixedIso, get, truthy] at hiso
  | arr xs => simp [fixedIso, get, truthy] at hiso

/-- Claim C2 as stated fails: a list under the group name `regional` contributes
nothing, and of two entries named `5` and `"5"` on one date only the first, whose
name is the number, is emitted. -/
theorem other_groups_ignored :
    flattenIndiaCommon rejectAll docRegional = some [] ∧
      (flattenIndiaCommon rejectAll docNumberName).map (fun out => out.map fun e => e.name)
        = some [.num 5] ∧
      fixedIso rejectAll (.obj [("name", .str "5"), ("date", .str "2025-03-10")])
        = some (some "2025-03-10") :=
  ⟨rfl, rfl, rfl⟩

/-- Claim C2, amended. For the two groups `holidays` and `non_holidays` of
`fixed_holidays`: each entry of the group's list whose date resolves contributes
an event, so a returned list contains an event with the entry's resolved date
whose name has the same string form as the entry's name, `Event` standing in for
a missing name. -/
theorem fixed_entry_contributes (P : DateParser) (data : JVal) (g : String)
    (items : List JVal) (item : JVal) (d : String) (out : List Event)
    (hg : g = "holidays" ∨ g = "non_holidays")
    (hitems : get (get data "fixed_holidays") g = .arr items)
    (hmem : item ∈ items)
    (hiso : fixedIso P item = some (some d))
    (hout : flattenIndiaCommon P data = some out) :
    ∃ e ∈ out, e.date = d ∧
      toStr e.name = toStr (orElse (get item "name") (.str "Event")) := by
  obtain ⟨acc, filtered, hacc, hded, rfl⟩ := flatten_some hout
  -- the accumulated list is the fixed section followed by the movable one
  unfold accumulate at hacc
  cases hfx : fixedSection P data with
  | none => simp [hfx] at hacc
  | some fx =>
    simp only [hfx] at hacc
    cases hmv : movableSection P data with
    | none => simp [hmv] at hacc
    | some mv =>
      simp only [hmv, Option.some.injEq] at hacc
      subst hacc
      -- the fixed section holds the events of both groups
      obtain ⟨fk, hfk⟩ := get_ne_undefined_obj hitems (by simp)
      have htruthy : truthy (get data "fixed_holidays") = true := by rw [hfk]; rfl
      unfold fixedSection at hfx
      simp only [htruthy, if_true] at hfx
      cases hhs : fixedGroup P (get data "fixed_holidays") "holidays" with
      | none => simp [hhs] at hfx
      | some hs =>
        simp only [hhs] at hfx
        cases hns : fixedGroup P (get data "fixed_holidays") "non_holidays" with
        | none => simp [hns] at hfx
        | some ns =>
          simp only [hns, Option.some.injEq] at hfx
          have hsafe : ∀ e ∈ fx, KeySafe e.date := by
            intro e he
            rw [← hfx] at he
            rcases List.mem_append.1 he with he | he
            · exact fixedGroup_keySafe P _ _ hs hhs e he
            · exact fixedGroup_keySafe P _ _ ns hns e he
          -- the entry's own event
          obtain ⟨ev, hev, hevd, hevn⟩ := fixedItem_event P g item d hiso
          have hevfx : ev ∈ fx := by
            rw [← hfx]
            rcases hg with hg | hg
            · subst hg
              unfold fixedGroup at hhs
              rw [hitems] at hhs
              exact List.mem_append_left _
                (forEachEvents_mem hhs hmem hev ev (List.mem_singleton_self _))
            · subst hg
              unfold fixedGroup at hns
              rw [hitems] at hns
              exact List.mem_append_right _
                (forEachEvents_mem hns hmem hev ev (List.mem_singleton_self _))
          -- deduplication keeps an event of the fixed section with the same key
          obtain ⟨r1, r2, hr1, hsplit⟩ := dedupe_append hded
          obtain ⟨k, hkev, hcov⟩ := dedupe_covers hr1 ev hevfx (hsafe ev hevfx).1
          rcases hcov with hnil | ⟨e, her1, hke⟩
          · simp at hnil
          · have hefx : e ∈ fx := (dedupe_sublist hr1).subset her1
            have heout : e ∈ sortBy compareDates filtered := by
              rw [(sortBy_perm compareDates filtered).mem_iff, hsplit]
              exact List.mem_append_left _ her1
            refine ⟨e, heout, ?_⟩
            unfold eventKey at hkev hke
            simp only [Option.map_eq_some'] at hkev hke
            obtain ⟨n1, hn1, hk1⟩ := hke
            obtain ⟨n2, hn2, hk2⟩ := hkev
            obtain ⟨hnn, hdd⟩ := key_split (hsafe e hefx).2 (hsafe ev hevfx).2 (hk1.trans hk2.symm)
            refine ⟨hdd.trans hevd, ?_⟩
            rw [← hevn, hn1, hn2, hnn]

/-- Instance of the amended claim C2: the entry "Republic Day" of the group
`holidays` of `docRepeated`. -/
theorem fixed_entry_contributes_witness :
    flattenIndiaCommon rejectAll docRepeated = some outRepeated ∧
      ∃ e ∈ outRepeated, e.date = "2025-01-26" ∧
        toStr e.name = toStr (orElse
          (get (.obj [("name", .str "Republic Day"), ("date", .str "2025-01-26")]) "name")
          (.str "Event")) :=
  ⟨rfl,
    fixed_entry_contributes rejectAll docRepeated "holidays"
      [.obj [("name", .str "Holi"), ("date", .str "2025-03-14"), ("overview", .str "first")],
       .obj [("name", .str "Republic Day"), ("date", .str "2025-01-26")]]
      (.obj [("name", .str "Republic Day"), ("date", .str "2025-01-26")])
      "2025-01-26" outRepeated (Or.inl rfl) rfl
      (List.mem_cons_of_mem _ (List.mem_cons_self _ _)) rfl rfl⟩

/-! ## Date strings handed to `ensureISODate` -/

theorem isMMDD_groups {s : String} (h : isMMDD s = true) :
    (mmddGroups s).1 ++ "-" ++ (mmddGroups s).2 = s := by
  unfold isMMDD at h
  split at h
  · rename_i a b c d heq
    cases s with
    | mk cs =>
      simp only at heq
      subst heq
      rfl
  · exact Bool.noConfusion h

theorem truthy_of_isISO {s : String} (h : isISO s = true) : truthy (.str s) = true := by
  have hlen := isISO_data h
  have hne : s.data ≠ [] := by
    intro hnil
    rw [hnil] at hlen
    simp at hlen
  simp [truthy, hne]

theorem truthy_of_isMMDD {s : String} (h : isMMDD s = true) : truthy (.str s) = true := by
  have hlen := isMMDD_data h
  have hne : s.data ≠ [] := by
    intro hnil
    rw [hnil] at hlen
    simp at hlen
  simp [truthy, hne]

/-- Claim C12. A string of the form YYYY-MM-DD is returned unchanged by
`ensureISODate`, whatever the default year (a number, any other value, `null` or
`undefined`) and whatever the host parser: no calendar check, no reformatting. -/
theorem ensureISODate_iso_unchanged (P : DateParser) (s : String) (defaultYear : JVal)
    (h : isISO s = true) : ensureISODate P (.str s) defaultYear = some (some s) := by
  unfold ensureISODate
  simp only [truthy_of_isISO h, Bool.not_true, Bool.false_eq_true, if_false]
  unfold ensureISOString
  simp [h]

/-- Instance of claim C12: the calendar-invalid text 2025-02-30 comes back as it
is, with no default year. -/
theorem ensureISODate_iso_unchanged_witness :
    isISO "2025-02-30" = true ∧
      ensureISODate rejectAll (.str "2025-02-30") .null = some (some "2025-02-30") :=
  ⟨rfl, ensureISODate_iso_unchanged rejectAll "2025-02-30" .null rfl⟩

/-- Claim C13 as stated fails at the default year 0, which the guard
`mmdd && defaultYear` treats as absent: the result is then whatever the host
parser makes of the text, `null` or a parsed date, and not the text `0-01-26`.
It also fails from the year `10^21` on, which a template literal renders in
exponent form. -/
theorem default_year_not_joined :
    isMMDD "01-26" = true ∧
      ensureISODate rejectAll (.str "01-26") (.num 0) = some none ∧
      ensureISODate parseAsJan26 (.str "01-26") (.num 0) = some (some "2001-01-26") ∧
      ensureISODate rejectAll (.str "01-26") (.num (10 ^ 21)) = some (some "1e+21-01-26") :=
  ⟨rfl, rfl, rfl, by decide⟩

/-- Claim C13, amended. For a string `s` of the form MM-DD and a non-zero default
year `Y` that is a safe integer (`|Y| ≤ 2^53 - 1`), `ensureISODate` returns the
decimal rendering of `Y`, a hyphen, and `s`. -/
theorem ensureISODate_month_day (P : DateParser) (s : String) (Y : Int)
    (h : isMMDD s = true) (hY : Y ≠ 0) (hlo : -9007199254740991 ≤ Y)
    (hhi : Y ≤ 9007199254740991) :
    ensureISODate P (.str s) (.num Y) = some (some (toString Y ++ "-" ++ s)) := by
  unfold ensureISODate
  simp only [truthy_of_isMMDD h, Bool.not_true, Bool.false_eq_true, if_false]
  unfold ensureISOString
  have hg := isMMDD_groups h
  have hnum : numText Y = toString Y :=
    numText_eq_toString Y (lt_of_lt_of_le (by norm_num) hlo) (lt_of_le_of_lt hhi (by norm_num))
  simp only [isMMDD_not_isISO h, Bool.false_eq_true, if_false, h, truthy, ne_eq, hY,
    not_false_eq_true, decide_True, Bool.and_self, if_true, toStr, Option.map_some', hnum]
  rw [String.append_assoc (toString Y ++ "-"), String.append_assoc (toString Y ++ "-")]
  rw [hg]

/-- Instance of the amended claim C13: 11-01 with the default year 2024. -/
theorem ensureISODate_month_day_witness :
    isMMDD "11-01" = true ∧ (2024 : Int) ≠ 0 ∧
      ensureISODate rejectAll (.str "11-01") (.num 2024) = some (some "2024-11-01") :=
  ⟨rfl, by decide,
    ensureISODate_month_day rejectAll "11-01" 2024 rfl (by decide) (by decide) (by decide)⟩

/-! ## The default colour -/

/-- Without a truthy `color` in the metadata the pushed event takes the colour
chosen by the metadata's own `type`. -/
theorem pushEvent_color {name : JVal} {iso : Option String} {m : JVal} {e : Event}
    (he : e ∈ pushEvent name iso m) (hc : truthy (get m "color") = false) :
    e.color = ownTypeColor (get m "type") := by
  unfold pushEvent at he
  cases iso with
  | none => simp at he
  | some d =>
    simp only at he
    split at he
    · simp at he
    · simp only [List.mem_singleton] at he
      rw [he]
      simp [eventColor, orElse, hc, ownTypeColor]

theorem fixedItem_color (P : DateParser) (g : String) (item : JVal) (e : Event)
    (he : e ∈ (fixedItem P g item).getD []) (hc : truthy (get item "color") = false) :
    e.color = ownTypeColor (get item "type") := by
  cases item with
  | obj kvs =>
    unfold fixedItem at he
    simp only [truthy, Bool.not_true, Bool.false_eq_true, if_false] at he
    cases hiso : fixedIso P (.obj kvs) with
    | none => simp [hiso] at he
    | some iso =>
      simp only [hiso, Option.map_some', Option.getD_some] at he
      have hcol : get (.obj (spread (ownProps (.obj kvs)) [("group", .str g)])) "color"
          = get (.obj kvs) "color" := by
        simp [get, spread, ownProps, lookup]
      have htyp : get (.obj (spread (ownProps (.obj kvs)) [("group", .str g)])) "type"
          = get (.obj kvs) "type" := by
        simp [get, spread, ownProps, lookup]
      rw [← htyp]
      exact pushEvent_color he (by rw [hcol]; exact hc)
  | undefined => simp [fixedItem, truthy] at he
  | null => simp [fixedItem, truthy] at he
  | bool b => cases b <;> simp [fixedItem, fixedIso, get, truthy, pushEvent] at he
  | num n =>
    by_cases hn : n = 0 <;> simp [fixedItem, fixedIso, get, truthy, pushEvent, hn] at he
  | str t =>
    by_cases ht : t.data = [] <;> simp [fixedItem, fixedIso, get, truthy, pushEvent, ht] at he
  | arr xs => simp [fixedItem, fixedIso, get, truthy, pushEvent] at he

theorem variantItem_color (P : DateParser) (f d : JVal) (e : Event)
    (he : e ∈ (variantItem P f d).getD [])
    (hc : truthy (get (.obj (spread (ownProps f) (ownProps d))) "color") = false) :
    e.color = ownTypeColor (get (.obj (spread (ownProps f) (ownProps d))) "type") := by
  unfold variantItem at he
  split at he
  · simp at he
  · cases hiso : variantIso P d with
    | none => simp [hiso] at he
    | some iso =>
      simp only [hiso, Option.map_some', Option.getD_some] at he
      exact pushEvent_color he hc

theorem festivalItem_color (P : DateParser) (f : JVal) (e : Event)
    (he : e ∈ (festivalItem P f).getD []) (hdates : ∀ ds, get f "dates" ≠ .arr ds)
    (hc : truthy (get f "color") = false) :
    e.color = ownTypeColor (get f "type") := by
  unfold festivalItem at he
  split at he
  · simp at he
  · split at he
    · rename_i ds hds
      exact absurd hds (hdates ds)
    · split at he
      · rename_i t _
        cases hiso : ensureISODate P (.str t) .null with
        | none => simp [hiso] at he
        | some iso =>
          simp only [hiso, Option.map_some', Option.getD_some] at he
          exact pushEvent_color he hc
      · simp at he

/-- Claim C11 as stated fails: the entry of Scenario B, in the group
`non_holidays` and without a colour, is emitted with type "holiday" and the
colour "#ff8a5b". -/
theorem holiday_event_gets_festival_color :
    flattenIndiaCommon rejectAll docNonHoliday =
      some [{ name := .str "X", date := "2025-03-10", type := .str "holiday",
              overview := .str "", color := .str "#ff8a5b",
              source := .str "india_common" }] :=
  rfl

/-- Claim C11, amended. An event whose metadata supplies no truthy colour gets
its colour from the metadata's own `type`, not from the emitted type: "#18b93f"
when that own type is the string "holiday" and "#ff8a5b" otherwise. This holds
for an entry of a fixed group, for a date variant of a movable festival (whose
metadata is the festival's overlaid with the variant's) and for a movable
festival with a single date. -/
theorem default_color_by_own_type (P : DateParser) (g : String) (item f d : JVal)
    (e : Event) :
    (e ∈ (fixedItem P g item).getD [] → truthy (get item "color") = false →
        e.color = ownTypeColor (get item "type")) ∧
      (e ∈ (variantItem P f d).getD [] →
        truthy (get (.obj (spread (ownProps f) (ownProps d))) "color") = false →
        e.color = ownTypeColor (get (.obj (spread (ownProps f) (ownProps d))) "type")) ∧
      (e ∈ (festivalItem P f).getD [] → (∀ ds, get f "dates" ≠ .arr ds) →
        truthy (get f "color") = false → e.color = ownTypeColor (get f "type")) :=
  ⟨fixedItem_color P g item e, variantItem_color P f d e, festivalItem_color P f e⟩

/-- Instances of the amended claim C11: a fixed entry of type "holiday" gets
"#18b93f", a variant without a type gets "#ff8a5b", and so does a single-date
festival of type "festival". -/
theorem default_color_by_own_type_witness :
    (∃ e, e ∈ (fixedItem rejectAll "holidays"
          (.obj [("name", .str "X"), ("date", .str "2025-03-10"), ("type", .str "holiday")])).getD []
        ∧ e.color = .str "#18b93f") ∧
      (∃ e, e ∈ (variantItem rejectAll (.obj parentNoType)
          (.obj [("year", .num 2024), ("date", .str "11-01")])).getD []
        ∧ e.color = .str "#ff8a5b") ∧
      (∃ e, e ∈ (festivalItem rejectAll
          (.obj [("name", .str "Y"), ("date", .str "2025-04-14"), ("type", .str "festival")])).getD []
        ∧ e.color = .str "#ff8a5b") :=
  ⟨⟨_, List.mem_singleton_self _,
      (default_color_by_own_type rejectAll "holidays"
        (.obj [("name", .str "X"), ("date", .str "2025-03-10"), ("type", .str "holiday")])
        .null .null _).1 (List.mem_singleton_self _) rfl⟩,
    ⟨_, List.mem_singleton_self _,
      (default_color_by_own_type rejectAll "holidays" .null (.obj parentNoType)
        (.obj [("year", .num 2024), ("date", .str "11-01")]) _).2.1
        (List.mem_singleton_self _) rfl⟩,
    ⟨_, List.mem_singleton_self _,
      (default_color_by_own_type rejectAll "holidays" .null
        (.obj [("name", .str "Y"), ("date", .str "2025-04-14"), ("type", .str "festival")])
        .null _).2.2 (List.mem_singleton_self _)
        (by intro ds h; exact JVal.noConfusion h) rfl⟩⟩

/-! ## The score table -/

/-- Claim C14. An accepted submission (truthy `user_id`, numeric score `s`)
leaves at its row key the score `s` when there was none and the larger of the old
score and `s` otherwise, so the stored score never decreases; when `s` is not
strictly greater than the old score the table is unchanged; every other row key
keeps its entry. -/
theorem submit_keeps_highest {K : Type} [DecidableEq K] (rowKey : JVal → JVal → K)
    (body : JVal) (t : ScoreTable K) (s : Int)
    (huser : truthy (get body "user_id") = true) (hscore : get body "score" = .num s) :
    (submitScore rowKey body t).2
        (rowKey (get body "user_id") (orElse (get body "quiz_name") (.str "default")))
        = some (match t (rowKey (get body "user_id")
                    (orElse (get body "quiz_name") (.str "default"))) with
                | none => s
                | some old => max old s) ∧
      (∀ old, t (rowKey (get body "user_id") (orElse (get body "quiz_name") (.str "default")))
          = some old →
        ∃ new, (submitScore rowKey body t).2
            (rowKey (get body "user_id") (orElse (get body "quiz_name") (.str "default")))
            = some new ∧ old ≤ new) ∧
      (∀ old, t (rowKey (get body "user_id") (orElse (get body "quiz_name") (.str "default")))
          = some old → s ≤ old → (submitScore rowKey body t).2 = t) ∧
      (∀ k, k ≠ rowKey (get body "user_id") (orElse (get body "quiz_name") (.str "default")) →
        (submitScore rowKey body t).2 k = t k) := by
  obtain ⟨kvs, rfl⟩ := get_ne_undefined_obj hscore (by simp)
  generalize hk : rowKey (get (.obj kvs) "user_id")
    (orElse (get (.obj kvs) "quiz_name") (.str "default")) = key
  have hsub : submitScore rowKey (.obj kvs) t =
      match t key with
      | some oldScore =>
        if s > oldScore then (.updated s, Function.update t key (some s)) else (.ignored, t)
      | none => (.inserted, Function.update t key (some s)) := by
    simp only [submitScore, huser, hscore, hk, Bool.not_true, Bool.false_eq_true, if_false]
  rw [hsub]
  cases hold : t key with
  | none =>
    refine ⟨by simp, ?_, ?_, ?_⟩
    · intro old h
      exact Option.noConfusion h
    · intro old h
      exact Option.noConfusion h
    · intro k hne
      simp [Function.update, hne]
  | some old =>
    by_cases hgt : s > old
    · simp only [hgt, if_true]
      refine ⟨?_, ?_, ?_, ?_⟩
      · simp only [Function.update_same]
        rw [max_eq_right (le_of_lt hgt)]
      · intro o ho
        simp only [Option.some.injEq] at ho
        exact ⟨s, by simp, by omega⟩
      · intro o ho hle
        simp only [Option.some.injEq] at ho
        omega
      · intro k hne
        simp [Function.update, hne]
    · simp only [hgt, if_false]
      have hle : s ≤ old := by omega
      refine ⟨?_, ?_, ?_, ?_⟩
      · rw [hold, max_eq_left hle]
      · intro o ho
        simp only [Option.some.injEq] at ho
        exact ⟨old, hold, by omega⟩
      · intro _ _ _
        trivial
      · intro _ _
        trivial

/-- Instance of claim C14: user 7 holds 40 for the quiz `default` and submits 55
without a quiz name; the row then holds 55. -/
theorem submit_keeps_highest_witness :
    truthy (get sampleSubmission "user_id") = true ∧ get sampleSubmission "score" = .num 55 ∧
      (submitScore textKey sampleSubmission sampleTable).2 (some "7", some "default")
        = some 55 ∧
      (submitScore textKey sampleSubmission sampleTable).1 = .updated 55 :=
  ⟨rfl, rfl,
    (submit_keeps_highest textKey sampleSubmission sampleTable 55 rfl rfl).1.trans (by decide),
    by decide⟩

/-! ## Deduplication by name and date -/

theorem pushEvent_nonempty {name : JVal} {iso : Option String} {m : JVal} {e : Event}
    (he : e ∈ pushEvent name iso m) : e.date.data ≠ [] := by
  unfold pushEvent at he
  cases iso with
  | none => simp at he
  | some d =>
    simp only at he
    split at he
    · simp at he
    · rename_i hd
      simp only [List.mem_singleton] at he
      rw [he]
      exact hd

theorem fixedItem_nonempty (P : DateParser) (g : String) (item : JVal) (es : List Event)
    (h : fixedItem P g item = some es) : ∀ e ∈ es, e.date.data ≠ [] := by
  unfold fixedItem at h
  split at h
  · simp only [Option.some.injEq] at h
    subst h
    simp
  · simp only [Option.map_eq_some'] at h
    obtain ⟨iso, _, hes⟩ := h
    intro e he
    rw [← hes] at he
    exact pushEvent_nonempty he

theorem variantItem_nonempty (P : DateParser) (f d : JVal) (es : List Event)
    (h : variantItem P f d = some es) : ∀ e ∈ es, e.date.data ≠ [] := by
  unfold variantItem at h
  split at h
  · simp only [Option.some.injEq] at h
    subst h
    simp
  · simp only [Option.map_eq_some'] at h
    obtain ⟨iso, _, hes⟩ := h
    intro e he
    rw [← hes] at he
    exact pushEvent_nonempty he

theorem festivalItem_nonempty (P : DateParser) (f : JVal) (es : List Event)
    (h : festivalItem P f = some es) : ∀ e ∈ es, e.date.data ≠ [] := by
  unfold festivalItem at h
  split at h
  · simp only [Option.some.injEq] at h
    subst h
    simp
  · split at h
    · exact forEachEvents_all (fun e => e.date.data ≠ []) h
        fun x _ es hes => variantItem_nonempty P f x es hes
    · split at h
      · simp only [Option.map_eq_some'] at h
        obtain ⟨iso, _, hes⟩ := h
        intro e he
        rw [← hes] at he
        exact pushEvent_nonempty he
      · simp only [Option.some.injEq] at h
        subst h
        simp

/-- Every accumulated event has a non-empty date. -/
theorem accumulate_nonempty (P : DateParser) (data : JVal) (acc : List Event)
    (h : accumulate P data = some acc) : ∀ e ∈ acc, e.date.data ≠ [] := by
  unfold accumulate at h
  cases hfx : fixedSection P data with
  | none => simp [hfx] at h
  | some fx =>
    simp only [hfx] at h
    cases hmv : movableSection P data with
    | none => simp [hmv] at h
    | some mv =>
      simp only [hmv, Option.some.injEq] at h
      have hfixed : ∀ e ∈ fx, e.date.data ≠ [] := by
        unfold fixedSection at hfx
        split at hfx
        · cases hhs : fixedGroup P (get data "fixed_holidays") "holidays" with
          | none => simp [hhs] at hfx
          | some hs =>
            simp only [hhs] at hfx
            cases hns : fixedGroup P (get data "fixed_holidays") "non_holidays" with
            | none => simp [hns] at hfx
            | some ns =>
              simp only [hns, Option.some.injEq] at hfx
              intro e he
              rw [← hfx] at he
              rcases List.mem_append.1 he with he | he
              · exact (fixedGroup_keySafe P _ _ hs hhs e he).1
              · exact (fixedGroup_keySafe P _ _ ns hns e he).1
        · simp only [Option.some.injEq] at hfx
          subst hfx
          simp
      have hmovable : ∀ e ∈ mv, e.date.data ≠ [] := by
        unfold movableSection at hmv
        split at hmv
        · exact forEachEvents_all (fun e => e.date.data ≠ []) hmv
            fun x _ es hes => festivalItem_nonempty P x es hes
        · simp only [Option.some.injEq] at hmv
          subst hmv
          simp
      intro e he
      rw [← h] at he
      rcases List.mem_append.1 he with he | he
      · exact hfixed e he
      · exact hmovable e he

/-- The first event of a key, when its key is not yet seen, is kept. -/
theorem dedupe_keeps_first_of_key {seen : List String} {l r : List Event}
    (h : dedupe seen l = some r) (pre : List Event) (x : Event) (post : List Event)
    (hl : l = pre ++ x :: post) (hx : x.date.data ≠ [])
    (hseen : ∀ k, eventKey x = some k → k ∉ seen)
    (hpre : ∀ y ∈ pre, eventKey y ≠ eventKey x) : x ∈ r := by
  induction pre generalizing seen l r with
  | nil =>
    subst hl
    obtain ⟨key, hk, hcase⟩ := dedupe_cons_some h
    rcases hcase with ⟨_, _, r1, _, hr⟩ | ⟨hdrop, _⟩
    · rw [hr]
      exact List.mem_cons_self _ _
    · rcases hdrop with hc | hempty
      · exact absurd (by simpa using hc) (hseen key hk)
      · exact absurd hempty hx
  | cons y pre ih =>
    subst hl
    rw [List.cons_append] at h
    obtain ⟨key, hk, hcase⟩ := dedupe_cons_some h
    have hyx : eventKey y ≠ eventKey x := hpre y (List.mem_cons_self _ _)
    have hrest : ∀ z ∈ pre, eventKey z ≠ eventKey x :=
      fun z hz => hpre z (List.mem_cons_of_mem _ hz)
    rcases hcase with ⟨_, _, r1, h1, hr⟩ | ⟨_, h1⟩
    · rw [hr]
      refine List.mem_cons_of_mem _ (ih h1 rfl ?_ hrest)
      intro k hkx hmem
      rcases List.mem_cons.1 hmem with hkk | hmem
      · exact hyx (by rw [hk, hkx, hkk])
      · exact hseen k hkx hmem
    · exact ih h1 rfl hseen hrest

/-- Claim C15, evaluated where it fails. Both festivals of `docKeyClash` have
string names, their accumulated events differ in name and in date, yet both have
the key `x::y::2024-11-01` and only the first is returned. -/
theorem key_merges_distinct_events :
    (accumulate rejectAll docKeyClash).map (fun acc => acc.map fun e => (toStr e.name, e.date))
        = some [(some "x::y", "2024-11-01"), (some "x", "y::2024-11-01")] ∧
      (accumulate rejectAll docKeyClash).map (fun acc => acc.map eventKey)
        = some [some "x::y::2024-11-01", some "x::y::2024-11-01"] ∧
      (flattenIndiaCommon rejectAll docKeyClash).map
          (fun out => out.map fun e => (toStr e.name, e.date))
        = some [(some "x::y", "2024-11-01")] :=
  ⟨rfl, rfl, rfl⟩

/-- Where the key does separate events. When every accumulated event has a
string name and a date without a colon (as every date of the form YYYY-MM-DD is):
two accumulated events with the same key have the same name and the same date; an
accumulated event with no earlier event of its name and date is in the output;
and the (name, date) pairs of the output are exactly those of the accumulated
events. -/
theorem dedupe_by_name_and_date (P : DateParser) (data : JVal) (acc out : List Event)
    (hacc : accumulate P data = some acc)
    (hout : flattenIndiaCommon P data = some out)
    (hnames : ∀ e ∈ acc, ∃ s, e.name = .str s)
    (hdates : ∀ e ∈ acc, ':' ∉ e.date.data) :
    (∀ a ∈ acc, ∀ b ∈ acc, eventKey a = eventKey b → a.name = b.name ∧ a.date = b.date) ∧
      (∀ pre x post, acc = pre ++ x :: post →
        (∀ y ∈ pre, ¬ (y.name = x.name ∧ y.date = x.date)) → x ∈ out) ∧
      (∀ n d, (∃ e ∈ out, e.name = n ∧ e.date = d) ↔ (∃ e ∈ acc, e.name = n ∧ e.date = d)) := by
  obtain ⟨acc', filtered, hacc', hded, rfl⟩ := flatten_some hout
  rw [hacc] at hacc'
  simp only [Option.some.injEq] at hacc'
  subst hacc'
  have hkeys : ∀ a ∈ acc, ∀ b ∈ acc, eventKey a = eventKey b →
      a.name = b.name ∧ a.date = b.date := by
    intro a ha b hb hab
    obtain ⟨sa, hsa⟩ := hnames a ha
    obtain ⟨sb, hsb⟩ := hnames b hb
    simp only [eventKey, hsa, hsb, toStr, Option.map_some', Option.some.injEq] at hab
    obtain ⟨hn, hd⟩ := key_split (hdates a ha) (hdates b hb) hab
    exact ⟨by rw [hsa, hsb, hn], hd⟩
  have hsub : ∀ e, e ∈ sortBy compareDates filtered → e ∈ acc := fun e he =>
    (dedupe_sublist hded).subset ((sortBy_perm compareDates filtered).mem_iff.1 he)
  refine ⟨hkeys, ?_, ?_⟩
  · intro pre x post hsplit hpre
    have hxacc : x ∈ acc := by
      rw [hsplit]
      exact List.mem_append_right _ (List.mem_cons_self _ _)
    rw [(sortBy_perm compareDates filtered).mem_iff]
    refine dedupe_keeps_first_of_key hded pre x post hsplit
      (accumulate_nonempty P data acc hacc x hxacc) (by simp) ?_
    intro y hy hyx
    have hyacc : y ∈ acc := by
      rw [hsplit]
      exact List.mem_append_left _ hy
    exact hpre y hy (hkeys y hyacc x hxacc hyx)
  · intro n d
    constructor
    · rintro ⟨e, he, hen, hed⟩
      exact ⟨e, hsub e he, hen, hed⟩
    · rintro ⟨e, he, hen, hed⟩
      obtain ⟨k, hk, hcov⟩ := dedupe_covers hded e he (accumulate_nonempty P data acc hacc e he)
      rcases hcov with hnil | ⟨e', he', hk'⟩
      · simp at hnil
      · have he'out : e' ∈ sortBy compareDates filtered :=
          (sortBy_perm compareDates filtered).mem_iff.2 he'
        obtain ⟨hn, hd⟩ := hkeys e' (hsub e' he'out) e he (hk'.trans hk.symm)
        exact ⟨e', he'out, hn.trans hen, hd.trans hed⟩

end Connect
